import Mathlib

/-!
The bigzip container format, inflate and restore.

A shallow embedding of `cmd/bigzip/main.go`.

* Bytes are `Fin 256`; a Go slice or fixed array of bytes is a `List Byte`.
* `uint64` and `int64` values are `Nat` and `Int`; the conversions and the
  additions of `run` that can leave the 64-bit range are written with an
  explicit `% 2^64` (`toInt64`).  The subtractions inside the loops take a
  length that is at most the counter from a positive counter and are plain.
* An `io.Writer` is a state together with its `Write` method, which reports how
  many bytes it took and an optional error.  `bytes.Buffer` and an `os.File`
  opened by `os.Create` are the writers that take everything they are given.
* The file system is a map from files to contents.  An `OS` value says which
  file a path names and which of the calls `os.Open`, `os.Create`, `os.Stat`,
  `File.Stat` and `os.ReadFile` fail on a path for a reason other than a
  missing file.  Reads and writes on an open file do not fail.
* `path/filepath` and the `float64` arithmetic of the size factor are not
  modelled: `run` takes the first from a `Library` argument and the second
  from a function argument.
* Every `for` loop of the source is a function that is structurally recursive
  on a fuel argument, one unit per evaluation of the loop condition.  The
  result `none` means that the fuel ran out; it says nothing about the program.
-/

namespace Bigzip

/-! ## Values -/

/-- A Go `byte` (`uint8`). -/
abbrev Byte := Fin 256

/-- The conversion `byte(x)` of an unsigned integer: the low eight bits. -/
def byte (x : Nat) : Byte := ⟨x % 256, Nat.mod_lt x (by decide)⟩

/-- The conversion `int64(x)` of an integer: two's complement on 64 bits. -/
def toInt64 (x : Int) : Int :=
  if x % 2 ^ 64 < 2 ^ 63 then x % 2 ^ 64 else x % 2 ^ 64 - 2 ^ 64

/-- The conversion `uint64(x)` of an integer. -/
def toUint64 (x : Int) : Nat := (x % 2 ^ 64).toNat

/-- Go `error` values the program creates or passes on.  `panic` stands for a
run-time panic (a slice expression out of range), `wrapped` for
`fmt.Errorf("...: %w", err)`, `writer` for an error of an `io.Writer` and `sys`
for an error of the operating system such as ENAMETOOLONG. -/
inductive Error where
  | EOF
  | ErrUnexpectedEOF
  | notExist (path : String)
  | notBigzip
  | invalidMode
  | unknownMode (mode : String)
  | inputRequired
  | factorTooSmall
  | panic
  | writer (code : Nat)
  | sys (errno : String)
  | wrapped (msg : String) (err : Error)
  deriving DecidableEq, Repr

/-- The constant `magic = "BIGZIP11"` as bytes. -/
def magic : List Byte := [66, 73, 71, 90, 73, 80, 49, 49]

/-- The struct `header`.  The arrays `[8]byte` and `[7]byte` are lists; a
header value of the program has `Magic.length = 8`, `Reserved.length = 7` and
`OriginalSize < 2^64`. -/
structure header where
  Magic : List Byte
  OriginalSize : Nat
  Mode : Byte
  Reserved : List Byte
  deriving DecidableEq, Repr

/-- The zero value `var h header`. -/
def header.zero : header :=
  { Magic := List.replicate 8 0, OriginalSize := 0, Mode := 0, Reserved := List.replicate 7 0 }

/-! ## Writers and readers -/

/-- An `io.Writer` with state `σ`: `Write s p` gives the number of bytes taken
from `p`, the error and the next state. -/
structure Writer (σ : Type) where
  Write : σ → List Byte → Nat × Option Error × σ

/-- The writer `bytes.Buffer`: the state is what was written so far, and every
`Write` appends all of `p`. -/
def bufWriter : Writer (List Byte) :=
  { Write := fun s p => (p.length, none, s ++ p) }

/-- The file system: file to contents.  A file is named by a string, the one
path under which all paths to it are counted (see `OS.file`). -/
abbrev FS := String → Option (List Byte)

/-- The file system with the contents of the file `path` replaced. -/
def FS.set (fs : FS) (path : String) (data : List Byte) : FS :=
  fun p => if p = path then some data else fs p

/-- The effect of an `os.Create` that succeeds: the file `path` exists afterwards
and is empty. -/
def osCreate (fs : FS) (path : String) : FS := fs.set path []

/-- The writer of an `*os.File` that `os.Create` opened on the file `path` and
that nothing else writes to: every `Write` appends all of `p` to the file. -/
def fileWriter (path : String) : Writer FS :=
  { Write := fun fs p => (p.length, none, fs.set path ((fs path).getD [] ++ p)) }

/-- What the operating system answers apart from the contents of files: `file p`
is the file that the path `p` names (two paths name one file exactly when they
have the same `file`), and each `...Err p` is the error, if any, with which the
call fails on `p` for a reason other than a missing file (a missing directory,
permissions, a name that is too long, the empty path). -/
structure OS where
  file : String → String
  openErr : String → Option Error
  createErr : String → Option Error
  statErr : String → Option Error
  fstatErr : String → Option Error
  readErr : String → Option Error

/-- The three answers of `os.Stat`: no error, an error for which
`os.IsNotExist` holds, and any other error. -/
inductive StatResult where
  | found
  | notExist
  | failed (err : Error)
  deriving DecidableEq, Repr

/-- The function `os.Stat`. -/
def osStat (os : OS) (fs : FS) (path : String) : StatResult :=
  match os.statErr path with
  | some err => StatResult.failed err
  | none => if fs (os.file path) = none then StatResult.notExist else StatResult.found

/-- The error of `os.Open`, if any. -/
def osOpen (os : OS) (fs : FS) (path : String) : Option Error :=
  match os.openErr path with
  | some err => some err
  | none => if fs (os.file path) = none then some (Error.notExist path) else none

/-- An operating system in which every path names its own file and no call
fails except on a missing file. -/
def plainOS : OS :=
  { file := fun p => p
    openErr := fun _ => none
    createErr := fun _ => none
    statErr := fun _ => none
    fstatErr := fun _ => none
    readErr := fun _ => none }

/-- An operating system like `plainOS` in which every call on a path of more
than `max` characters fails with ENAMETOOLONG (a directory of file names, with
NAME_MAX = `max`). -/
def limitedNames (max : Nat) : OS :=
  { file := fun p => p
    openErr := fun p => if p.length > max then some (Error.sys "ENAMETOOLONG") else none
    createErr := fun p => if p.length > max then some (Error.sys "ENAMETOOLONG") else none
    statErr := fun p => if p.length > max then some (Error.sys "ENAMETOOLONG") else none
    fstatErr := fun _ => none
    readErr := fun p => if p.length > max then some (Error.sys "ENAMETOOLONG") else none }

/-- A writer that takes everything: its states `st c` record the bytes `c` written so far,
and `Write` takes all of `p` without error.  `bytes.Buffer` and the file that `os.Create`
opened are such writers. -/
def Appends {σ : Type} (w : Writer σ) (st : List Byte → σ) : Prop :=
  ∀ c p : List Byte, w.Write (st c) p = (p.length, none, st (c ++ p))

/-- The built-in `copy(dst, src)`: the new contents of `dst`. -/
def copy (dst src : List Byte) : List Byte :=
  src.take dst.length ++ dst.drop src.length

/-- The function `io.ReadFull(r, buf)` with `len(buf) = n` on a reader whose
unread input is `data`: the bytes read, the error and the unread input left.
The error is `EOF` when nothing could be read and `ErrUnexpectedEOF` when the
input ended after some but not all of the `n` bytes. -/
def ReadFull (data : List Byte) (n : Nat) : List Byte × Option Error × List Byte :=
  if n ≤ data.length then (data.take n, none, data.drop n)
  else if data.length = 0 then ([], some Error.EOF, [])
  else (data, some Error.ErrUnexpectedEOF, [])

/-! ## Header codec -/

/-- The function `binary.LittleEndian.PutUint64(b, v)` on an 8-byte slice. -/
def PutUint64 (v : Nat) : List Byte :=
  [byte v, byte (v >>> 8), byte (v >>> 16), byte (v >>> 24),
   byte (v >>> 32), byte (v >>> 40), byte (v >>> 48), byte (v >>> 56)]

/-- The function `binary.LittleEndian.Uint64(b)`; an index past the end of `b`
does not occur, the callers pass 8 bytes. -/
def Uint64 (b : List Byte) : Nat :=
  (b.getD 0 0).val ||| (b.getD 1 0).val <<< 8 ||| (b.getD 2 0).val <<< 16 |||
  (b.getD 3 0).val <<< 24 ||| (b.getD 4 0).val <<< 32 ||| (b.getD 5 0).val <<< 40 |||
  (b.getD 6 0).val <<< 48 ||| (b.getD 7 0).val <<< 56

/-- The buffer that `writeHeader` builds (lines 362-366). -/
def headerBuf (h : header) : List Byte :=
  let buf : List Byte := List.replicate 24 0
  let buf := copy (buf.take 8) h.Magic ++ buf.drop 8
  let buf := buf.take 8 ++ PutUint64 h.OriginalSize ++ buf.drop 16
  let buf := buf.set 16 h.Mode
  buf

/-- The function `writeHeader`: one `Write` of the 24-byte buffer, whose byte
count is dropped and whose error is returned. -/
def writeHeader {σ : Type} (w : Writer σ) (s : σ) (h : header) : Option Error × σ :=
  let r := w.Write s (headerBuf h)
  (r.2.1, r.2.2)

/-- The function `readHeader` on a reader whose unread input is `data`: the
header or the error, and the unread input left. -/
def readHeader (data : List Byte) : Except Error header × List Byte :=
  let (buf, err, rest) := ReadFull data 24
  if err ≠ none then (Except.error (err.getD Error.EOF), rest)
  else
    let h : header := header.zero
    let h := { h with Magic := copy h.Magic (buf.take 8) }
    let h := { h with OriginalSize := Uint64 ((buf.drop 8).take 8) }
    let h := { h with Mode := buf.getD 16 0 }
    if h.Magic ≠ magic then (Except.error Error.notBigzip, rest)
    else if h.Mode > 2 then (Except.error Error.invalidMode, rest)
    else (Except.ok h, rest)

/-! ## Writing -/

/-- The function `writeAll`: `Write` is called on what is left of `b` until
nothing is left or it returns an error.  The slice expression `b[n:]` panics
when the writer reports more bytes than it was given. -/
def writeAll {σ : Type} (w : Writer σ) : Nat → σ → List Byte → Option (Option Error × σ)
  | 0, _, _ => none
  | fuel + 1, s, b =>
    if b.length > 0 then
      let r := w.Write s b
      if r.2.1 ≠ none then some (r.2.1, r.2.2)
      else if r.1 > b.length then some (some Error.panic, r.2.2)
      else writeAll w fuel r.2.2 (b.drop r.1)
    else some (none, s)

/-- The loop of `writeRepeat` (lines 311-322); `inner` is the fuel of each
`writeAll`. -/
def writeRepeat.loop {σ : Type} (w : Writer σ) (chunk : List Byte) (inner : Nat) :
    Nat → σ → Int → Option (Option Error × σ)
  | 0, _, _ => none
  | fuel + 1, s, remaining =>
    if remaining > 0 then
      let toWrite := chunk
      let toWrite := if (toWrite.length : Int) > remaining then toWrite.take remaining.toNat else toWrite
      match writeAll w inner s toWrite with
      | none => none
      | some (some err, s1) => some (some err, s1)
      | some (none, s1) => writeRepeat.loop w chunk inner fuel s1 (remaining - (toWrite.length : Int))
    else some (none, s)

/-- The function `writeRepeat`. -/
def writeRepeat {σ : Type} (w : Writer σ) (fuel : Nat) (s : σ) (inData : List Byte)
    (remaining : Int) : Option (Option Error × σ) :=
  if remaining ≤ 0 then some (none, s)
  else
    let chunk := inData
    let chunk := if chunk.length = 0 then [0] else chunk
    writeRepeat.loop w chunk fuel fuel s remaining

/-- The source of `crypto/rand`: the bytes it will hand out, in order.  By its
contract `rand.Read` fills the whole slice and returns no error. -/
abbrev RandSource := Nat → Byte

/-- The function `rand.Read(fill)` with `len(fill) = n`: the bytes put into
`fill` and the source afterwards. -/
def randRead (rnd : RandSource) (n : Nat) : List Byte × RandSource :=
  ((List.range n).map rnd, fun i => rnd (n + i))

/-- The loop of `writePad` (lines 335-356).  `buf` is the 64 KiB buffer, whose
front `fill` is overwritten in every round. -/
def writePad.loop {σ : Type} (w : Writer σ) (random : Bool) (inner : Nat) :
    Nat → σ → RandSource → List Byte → Int → Option (Option Error × σ)
  | 0, _, _, _, _ => none
  | fuel + 1, s, rnd, buf, remaining =>
    if remaining > 0 then
      let n := if (buf.length : Int) > remaining then remaining.toNat else buf.length
      let r := if random then randRead rnd n else ((buf.take n).map (fun _ => 0), rnd)
      let fill := r.1
      let buf := fill ++ buf.drop n
      match writeAll w inner s fill with
      | none => none
      | some (some err, s1) => some (some err, s1)
      | some (none, s1) => writePad.loop w random inner fuel s1 r.2 buf (remaining - (fill.length : Int))
    else some (none, s)

/-- The function `writePad`. -/
def writePad {σ : Type} (w : Writer σ) (fuel : Nat) (s : σ) (rnd : RandSource)
    (remaining : Int) (random : Bool) : Option (Option Error × σ) :=
  if remaining ≤ 0 then some (none, s)
  else
    let bufSize := 64 * 1024
    let buf : List Byte := List.replicate bufSize 0
    writePad.loop w random fuel fuel s rnd buf remaining

/-! ## Inflate: the container-writing part of `run` -/

/-- The function `strings.ToLower` on the ASCII letters; other characters are
left as they are (no letter outside ASCII has a lower case among the letters of
"repeat", "zero" and "random"). -/
def ToLower (s : String) : String := String.mk (s.data.map Char.toLower)

/-- The mode switch of `run` (lines 131-141) on the lower-cased mode string:
the mode byte, or nothing for the `default` case. -/
def modeByte (m : String) : Option Byte :=
  if m = "repeat" then some 0
  else if m = "zero" then some 1
  else if m = "random" then some 2
  else none

/-- The clamp of `run` (lines 94-99): `minTotal := int64(24) + inSize`, and a
smaller `desiredTotal` is raised to it. -/
def clampTotal (desiredTotal inSize : Int) : Int :=
  let minTotal := toInt64 (24 + inSize)
  if desiredTotal < minTotal then minTotal else desiredTotal

/-- The part of `run` after `os.Create` (lines 129-177): the mode switch, the
header, the original content and the fill, written to `outFile`.  The argument
`desiredTotal` is the value after the clamp and `mode` is `cfg.mode`. -/
def writeContainer {σ : Type} (outFile : Writer σ) (fuel : Nat) (s : σ) (rnd : RandSource)
    (inData : List Byte) (desiredTotal : Int) (mode : String) : Option (Option Error × σ) :=
  let m := ToLower mode
  match modeByte m with
  | none => some (some (Error.unknownMode mode), s)
  | some modeByte =>
    let hdr : header := header.zero
    let hdr := { hdr with Magic := copy hdr.Magic magic }
    let hdr := { hdr with OriginalSize := toUint64 inData.length }
    let hdr := { hdr with Mode := modeByte }
    match writeHeader outFile s hdr with
    | (some err, s1) => some (some (Error.wrapped "failed to write header" err), s1)
    | (none, s1) =>
      match writeAll outFile fuel s1 inData with
      | none => none
      | some (some err, s2) => some (some (Error.wrapped "failed to write body" err), s2)
      | some (none, s2) =>
        let remaining := toInt64 (desiredTotal - toInt64 (24 + (inData.length : Int)))
        let r :=
          if m = "repeat" then writeRepeat outFile fuel s2 inData remaining
          else if m = "zero" then writePad outFile fuel s2 rnd remaining false
          else if m = "random" then writePad outFile fuel s2 rnd remaining true
          else some (none, s2)
        match r with
        | none => none
        | some (some err, s3) => some (some (Error.wrapped "inflation error" err), s3)
        | some (none, s3) => some (none, s3)

/-- Inflate: the clamp of the requested total followed by the writing of the
container, as `run` does for the input content `inData`, the requested total
`desiredTotal` and the mode string `mode` (the size `info.Size()` of the input
file is the length of what `os.ReadFile` returns). -/
def inflate {σ : Type} (outFile : Writer σ) (fuel : Nat) (s : σ) (rnd : RandSource)
    (inData : List Byte) (desiredTotal : Int) (mode : String) : Option (Option Error × σ) :=
  writeContainer outFile fuel s rnd inData (clampTotal desiredTotal inData.length) mode

/-! ## Restore -/

/-- The copy loop of `unbigzip` (lines 421-441), on the input file `inPath` and the
output file `outPath`.  The input file is read at offset `off` from its contents at the
time of the read; `mode` is `h.Mode`. -/
def unbigzip.loop (inPath outPath : String) (mode : Byte) :
    Nat → FS → Nat → Int → Option ((Byte × Option Error) × FS)
  | 0, _, _, _ => none
  | fuel + 1, fs, off, toCopy =>
    if toCopy > 0 then
      let n : Int := 64 * 1024
      let n := if n > toCopy then toCopy else n
      let r := ReadFull (((fs inPath).getD []).drop off) n.toNat
      let rn := r.1.length
      let rerr := r.2.1
      if rerr ≠ none ∧ rerr ≠ some Error.ErrUnexpectedEOF then some ((0, rerr), fs)
      else if rn = 0 then some ((mode, none), fs)
      else
        let wr := (fileWriter outPath).Write fs r.1
        if wr.2.1 ≠ none then some ((0, wr.2.1), wr.2.2)
        else unbigzip.loop inPath outPath mode fuel wr.2.2 (off + rn) (toCopy - (rn : Int))
    else some ((mode, none), fs)

/-- The function `unbigzip`: the mode and the error it returns, and the file
system afterwards. -/
def unbigzip (os : OS) (fuel : Nat) (fs : FS) (inPath outPath : String) :
    Option ((Byte × Option Error) × FS) :=
  match osOpen os fs inPath with
  | some err => some ((0, some err), fs)
  | none =>
    match (readHeader ((fs (os.file inPath)).getD [])).1 with
    | Except.error err => some ((0, some err), fs)
    | Except.ok h =>
      match os.createErr outPath with
      | some err => some ((0, some err), fs)
      | none =>
        let fs1 := osCreate fs (os.file outPath)
        let toCopy := toInt64 (h.OriginalSize : Int)
        unbigzip.loop (os.file inPath) (os.file outPath) h.Mode fuel fs1 24 toCopy

/-! ## The command: paths and `run` -/

/-- The struct `config`.  The factor, a finite `float64`, is a rational number. -/
structure config where
  input : String
  output : String
  factor : Rat
  mode : String
  unbig : Bool
  force : Bool

/-- Library results that the model takes as given: the functions of `path/filepath`. -/
structure Library where
  Dir : String → String
  Base : String → String
  Ext : String → String
  Join : String → String → String

/-- The function `strings.HasSuffix`. -/
def HasSuffix (s suffix : String) : Bool := suffix.data.isSuffixOf s.data

/-- The function `strings.TrimSuffix`. -/
def TrimSuffix (s suffix : String) : String :=
  if HasSuffix s suffix then String.mk (s.data.take (s.data.length - suffix.data.length)) else s

/-- The function `modeString`. -/
def modeString (m : Byte) : String :=
  if m = 0 then "repeat"
  else if m = 1 then "zero"
  else if m = 2 then "random"
  else "unknown"

/-- The two counter loops of `findUniquePath` (lines 253-259 and 266-272): `candidate i`
is the path built for the counter `i`.  The loop ends only when `os.IsNotExist` holds for
the error of `os.Stat`; after any other answer it goes on to the next counter. -/
def findUniquePath.loop (os : OS) (fs : FS) (candidate : Nat → String) :
    Nat → Nat → Option String
  | 0, _ => none
  | fuel + 1, i =>
    let newPath := candidate i
    if osStat os fs newPath = StatResult.notExist then some newPath
    else findUniquePath.loop os fs candidate fuel (i + 1)

/-- The function `findUniquePath`. -/
def findUniquePath (os : OS) (lib : Library) (fuel : Nat) (fs : FS) (path : String) :
    Option String :=
  if osStat os fs path = StatResult.notExist then some path
  else
    let dir := lib.Dir path
    let base := lib.Base path
    if HasSuffix base ".bigzip" then
      let nameWithoutBigzip := TrimSuffix base ".bigzip"
      let originalExt := lib.Ext nameWithoutBigzip
      let nameWithoutExt := TrimSuffix nameWithoutBigzip originalExt
      findUniquePath.loop os fs
        (fun i => lib.Join dir (nameWithoutExt ++ "_" ++ toString i ++ originalExt ++ ".bigzip"))
        fuel 1
    else
      let ext := lib.Ext base
      let name := TrimSuffix base ext
      findUniquePath.loop os fs (fun i => lib.Join dir (name ++ "_" ++ toString i ++ ext))
        fuel 1

/-- The path that `findUniquePath` tries for the counter `i`: the `fmt.Sprintf` and
`filepath.Join` of lines 254-255 for a base name that ends in ".bigzip", and of lines
267-268 otherwise. -/
def findUniquePath.candidate (lib : Library) (path : String) (i : Nat) : String :=
  let dir := lib.Dir path
  let base := lib.Base path
  if HasSuffix base ".bigzip" then
    let nameWithoutBigzip := TrimSuffix base ".bigzip"
    let originalExt := lib.Ext nameWithoutBigzip
    let nameWithoutExt := TrimSuffix nameWithoutBigzip originalExt
    lib.Join dir (nameWithoutExt ++ "_" ++ toString i ++ originalExt ++ ".bigzip")
  else
    let ext := lib.Ext base
    let name := TrimSuffix base ext
    lib.Join dir (name ++ "_" ++ toString i ++ ext)

/-- The guard `if !cfg.force { if _, err := os.Stat(p); err == nil { p = findUniquePath(p) } }`
of `run` (lines 66-70 and 111-115). -/
def uniqueUnlessForce (os : OS) (lib : Library) (fuel : Nat) (fs : FS) (force : Bool)
    (path : String) : Option String :=
  if !force then
    if osStat os fs path = StatResult.found then findUniquePath os lib fuel fs path
    else some path
  else some path

/-- The function `run`: the error it returns and the file system afterwards.  What it prints
is left out.  `ceilMul inSize factor` stands for the `float64` computation
`int64(math.Ceil(float64(inSize) * cfg.factor))` of line 92. -/
def run (os : OS) (lib : Library) (ceilMul : Int → Rat → Int) (fuel : Nat) (rnd : RandSource)
    (fs : FS) (cfg : config) : Option (Option Error × FS) :=
  if cfg.input = "" then some (some Error.inputRequired, fs)
  else
    match osOpen os fs cfg.input with
    | some err => some (some (Error.wrapped "failed to open input" err), fs)
    | none =>
      if cfg.unbig then
        let output := cfg.output
        let output :=
          if output = "" then
            if HasSuffix cfg.input ".bigzip" then TrimSuffix cfg.input ".bigzip"
            else cfg.input ++ ".orig"
          else output
        match uniqueUnlessForce os lib fuel fs cfg.force output with
        | none => none
        | some output =>
          match unbigzip os fuel fs cfg.input output with
          | none => none
          | some ((_, some err), fs1) => some (some (Error.wrapped "unbigzip error" err), fs1)
          | some ((_, none), fs1) => some (none, fs1)
      else
        match os.fstatErr cfg.input with
        | some err => some (some (Error.wrapped "failed to stat input" err), fs)
        | none =>
          let inSize : Int := ((fs (os.file cfg.input)).getD []).length
          if cfg.factor < 1 then some (some Error.factorTooSmall, fs)
          else
            let desiredTotal := ceilMul inSize cfg.factor
            let desiredTotal := clampTotal desiredTotal inSize
            match os.readErr cfg.input with
            | some err => some (some (Error.wrapped "failed to read input" err), fs)
            | none =>
              let inData := (fs (os.file cfg.input)).getD []
              let outPath := cfg.output
              let outPath :=
                if outPath = "" then
                  lib.Join (lib.Dir cfg.input) (lib.Base cfg.input ++ ".bigzip")
                else outPath
              match uniqueUnlessForce os lib fuel fs cfg.force outPath with
              | none => none
              | some outPath =>
                match os.createErr outPath with
                | some err => some (some (Error.wrapped "failed to create output" err), fs)
                | none =>
                  let fs1 := osCreate fs (os.file outPath)
                  writeContainer (fileWriter (os.file outPath)) fuel fs1 rnd inData
                    desiredTotal cfg.mode

/-! ## Writers with short writes, and a library for file names -/

/-- A writer with short writes: on a non-empty `p` every `Write` takes some `n` bytes with
`1 ≤ n ≤ len(p)` without error and hands exactly `p[:n]` to its sink; `sink s` is what the
writer in state `s` has received so far. -/
def ShortWrites {σ : Type} (w : Writer σ) (sink : σ → List Byte) : Prop :=
  ∀ (s : σ) (p : List Byte), p ≠ [] →
    (w.Write s p).2.1 = none ∧ 1 ≤ (w.Write s p).1 ∧ (w.Write s p).1 ≤ p.length ∧
    sink (w.Write s p).2.2 = sink s ++ p.take (w.Write s p).1

/-- A writer into a buffer that takes at most `k` bytes in one `Write`. -/
def chunkWriter (k : Nat) : Writer (List Byte) :=
  { Write := fun s p => (min k p.length, none, s ++ p.take k) }

/-- The scan of `filepath.Ext` from the end of the path: `rev` is what is left of the
reversed path and `acc` the characters passed so far. -/
def Ext.scan : List Char → List Char → List Char
  | [], _ => []
  | c :: rev, acc =>
    if c = '/' then []
    else if c = '.' then c :: acc
    else Ext.scan rev (c :: acc)

/-- The function `filepath.Ext`: the suffix from the last dot of the last element. -/
def Ext (path : String) : String := String.mk (Ext.scan path.data.reverse [])

/-- The results of `path/filepath` on file names without a directory part: `Dir` is ".",
`Base` is the name itself and `Join(".", name)` is `name`. -/
def bareNames : Library :=
  { Dir := fun _ => "."
    Base := fun p => p
    Ext := Ext
    Join := fun _ name => name }

/-! ## Arithmetic of the header fields -/

theorem or_shiftLeft_of_lt (acc x k : Nat) (h : acc < 2 ^ k) :
    acc ||| x <<< k = acc + x * 2 ^ k := by
  rw [Nat.shiftLeft_eq, Nat.lor_comm, Nat.mul_comm x, ← Nat.mul_add_lt_is_or h, Nat.add_comm]

theorem Uint64_eq_sum (b : List Byte) :
    Uint64 b = (b.getD 0 0).val + (b.getD 1 0).val * 2 ^ 8 + (b.getD 2 0).val * 2 ^ 16 +
      (b.getD 3 0).val * 2 ^ 24 + (b.getD 4 0).val * 2 ^ 32 + (b.getD 5 0).val * 2 ^ 40 +
      (b.getD 6 0).val * 2 ^ 48 + (b.getD 7 0).val * 2 ^ 56 := by
  have h0 := (b.getD 0 0).isLt
  have h1 := (b.getD 1 0).isLt
  have h2 := (b.getD 2 0).isLt
  have h3 := (b.getD 3 0).isLt
  have h4 := (b.getD 4 0).isLt
  have h5 := (b.getD 5 0).isLt
  have h6 := (b.getD 6 0).isLt
  unfold Uint64
  rw [or_shiftLeft_of_lt _ _ 8 (by omega), or_shiftLeft_of_lt _ _ 16 (by omega),
    or_shiftLeft_of_lt _ _ 24 (by omega), or_shiftLeft_of_lt _ _ 32 (by omega),
    or_shiftLeft_of_lt _ _ 40 (by omega), or_shiftLeft_of_lt _ _ 48 (by omega),
    or_shiftLeft_of_lt _ _ 56 (by omega)]

theorem Uint64_PutUint64 (v : Nat) : Uint64 (PutUint64 v) = v % 2 ^ 64 := by
  rw [Uint64_eq_sum]
  simp only [PutUint64, byte, List.getD_cons_zero, List.getD_cons_succ, Nat.shiftRight_eq_div_pow]
  omega

theorem Uint64_lt (b : List Byte) : Uint64 b < 2 ^ 64 := by
  rw [Uint64_eq_sum]
  have h0 := (b.getD 0 0).isLt
  have h1 := (b.getD 1 0).isLt
  have h2 := (b.getD 2 0).isLt
  have h3 := (b.getD 3 0).isLt
  have h4 := (b.getD 4 0).isLt
  have h5 := (b.getD 5 0).isLt
  have h6 := (b.getD 6 0).isLt
  have h7 := (b.getD 7 0).isLt
  omega

/-! ## The file system -/

theorem FS.set_same (fs : FS) (path : String) (data : List Byte) :
    (fs.set path data) path = some data := by
  simp [FS.set]

theorem FS.set_other (fs : FS) (path q : String) (data : List Byte) (h : q ≠ path) :
    (fs.set path data) q = fs q := by
  simp [FS.set, h]

theorem FS.set_set (fs : FS) (path : String) (data data2 : List Byte) :
    (fs.set path data).set path data2 = fs.set path data2 := by
  funext q
  by_cases h : q = path <;> simp [FS.set, h]

/-! ## Loops on a writer that takes everything -/

theorem bufWriter_appends : Appends bufWriter id := fun _ _ => rfl

theorem fileWriter_appends (fs : FS) (path : String) :
    Appends (fileWriter path) (fun c => fs.set path c) := by
  intro c p
  have h : (fs.set path c).set path (((fs.set path c) path).getD [] ++ p) = fs.set path (c ++ p) := by
    funext q
    by_cases hq : q = path <;> simp [FS.set, hq]
  simp only [fileWriter, h]

theorem writeAll_appends {σ : Type} (w : Writer σ) (st : List Byte → σ) (hw : Appends w st)
    (fuel : Nat) (s b : List Byte) :
    writeAll w (fuel + 2) (st s) b = some (none, st (s ++ b)) := by
  by_cases hb : b.length > 0
  · simp [writeAll, hw s b, hb]
  · have : b = [] := by
      cases b with
      | nil => rfl
      | cons x xs => simp at hb
    subst this
    simp [writeAll]

theorem writeRepeat_loop_appends {σ : Type} (w : Writer σ) (st : List Byte → σ)
    (hw : Appends w st) (chunk : List Byte) (hchunk : chunk ≠ []) (inner : Nat) :
    ∀ (fuel k : Nat) (s : List Byte), k < fuel →
      ∃ out, writeRepeat.loop w chunk (inner + 2) fuel (st s) (k : Int) =
          some (none, st (s ++ out)) ∧
        out.length = k ∧ ∀ i, i < k → out[i]? = chunk[i % chunk.length]? := by
  have hlen : 0 < chunk.length := List.length_pos.mpr hchunk
  intro fuel
  induction fuel with
  | zero => intro k s hk; omega
  | succ fuel ih =>
    intro k s hk
    by_cases hk0 : k = 0
    · subst hk0
      exact ⟨[], by simp [writeRepeat.loop], rfl, by intro i hi; omega⟩
    · have hpos : (k : Int) > 0 := by omega
      by_cases hgt : chunk.length > k
      · obtain ⟨out, hout, hl, _⟩ := ih 0 (s ++ chunk.take k) (by omega)
        have hnil : out = [] := List.eq_nil_of_length_eq_zero hl
        subst hnil
        refine ⟨chunk.take k, ?_, ?_, ?_⟩
        · have hgt2 : (chunk.length : Int) > (k : Int) := by omega
          have hmin : min k chunk.length = k := by omega
          simp only [writeRepeat.loop, hpos, if_true, hgt2, Int.toNat_ofNat, writeAll_appends w st hw,
            List.length_take, hmin, sub_self]
          simpa using hout
        · simp; omega
        · intro i hi
          rw [List.getElem?_take_of_lt hi, Nat.mod_eq_of_lt (by omega)]
      · obtain ⟨out, hout, hl, hget⟩ := ih (k - chunk.length) (s ++ chunk) (by omega)
        refine ⟨chunk ++ out, ?_, ?_, ?_⟩
        · have hgt2 : ¬ (chunk.length : Int) > (k : Int) := by omega
          have hsub : (k : Int) - (chunk.length : Int) = ((k - chunk.length : Nat) : Int) := by omega
          simp only [writeRepeat.loop, hpos, if_true, hgt2, if_false, writeAll_appends w st hw, hsub]
          simpa using hout
        · simp; omega
        · intro i hi
          by_cases hi2 : i < chunk.length
          · rw [List.getElem?_append_left hi2, Nat.mod_eq_of_lt hi2]
          · rw [List.getElem?_append_right (by omega), hget _ (by omega)]
            congr 1
            have h1 : i = (i - chunk.length) + chunk.length := by omega
            conv_rhs => rw [h1, Nat.add_mod_right]

theorem writePad_loop_appends {σ : Type} (w : Writer σ) (st : List Byte → σ)
    (hw : Appends w st) (random : Bool) (inner : Nat) :
    ∀ (fuel k : Nat) (s : List Byte) (rnd : RandSource) (buf : List Byte),
      buf.length = 65536 → (k + 65535) / 65536 + 1 ≤ fuel →
      ∃ out, writePad.loop w random (inner + 2) fuel (st s) rnd buf (k : Int) =
          some (none, st (s ++ out)) ∧
        out.length = k ∧ (random = false → out = List.replicate k 0) := by
  intro fuel
  induction fuel with
  | zero => intro k s rnd buf _ hk; omega
  | succ fuel ih =>
    intro k s rnd buf hbuf hk
    by_cases hk0 : k = 0
    · subst hk0
      exact ⟨[], by simp [writePad.loop], rfl, by intro _; rfl⟩
    · have hpos : (k : Int) > 0 := by omega
      -- the number of bytes of this round
      obtain ⟨n, hn⟩ : ∃ n : Nat, n = (if (buf.length : Int) > (k : Int) then (k : Int).toNat
          else buf.length) := ⟨_, rfl⟩
      have hnle : n ≤ k ∧ n ≤ 65536 ∧ 0 < n ∧ (k ≤ 65536 → n = k) ∧ (65536 < k → n = 65536) := by
        rw [hbuf] at hn
        split at hn
        · simp only [Int.toNat_ofNat] at hn
          omega
        · omega
      obtain ⟨fill, hfill⟩ : ∃ fill : List Byte × RandSource, fill =
          (if random then randRead rnd n else ((buf.take n).map (fun _ => (0 : Byte)), rnd)) :=
        ⟨_, rfl⟩
      have hfl : fill.1.length = n := by
        rw [hfill]
        cases random
        · simp; omega
        · simp [randRead]
      have hfz : random = false → fill.1 = List.replicate n 0 := by
        intro hr
        subst hr
        rw [hfill]
        simp only [Bool.false_eq_true, if_false]
        apply List.eq_replicate_iff.mpr
        constructor
        · simp; omega
        · intro b hb
          simp at hb
          exact hb.2
      obtain ⟨out, hout, hl, hz⟩ := ih (k - n) (s ++ fill.1) fill.2 (fill.1 ++ buf.drop n)
        (by simp [hfl]; omega) (by omega)
      refine ⟨fill.1 ++ out, ?_, ?_, ?_⟩
      · have hsub : (k : Int) - (n : Int) = ((k - n : Nat) : Int) := by omega
        simp only [writePad.loop, hpos, if_true, ← hn, ← hfill, writeAll_appends w st hw, hfl, hsub]
        simpa using hout
      · simp [hfl, hl]; omega
      · intro hr
        rw [hfz hr, hz hr, ← List.replicate_add]
        congr 1
        omega

theorem writeRepeat_appends_length {σ : Type} (w : Writer σ) (st : List Byte → σ)
    (hw : Appends w st) (b : List Byte) (remaining : Int) (fuel : Nat)
    (sink : List Byte) (hfuel : remaining.toNat + 2 ≤ fuel) :
    ∃ out, writeRepeat w fuel (st sink) b remaining = some (none, st (sink ++ out)) ∧
      out.length = remaining.toNat := by
  by_cases hr : remaining ≤ 0
  · exact ⟨[], by simp [writeRepeat, hr], by simp [Int.toNat_eq_zero.mpr hr]⟩
  · obtain ⟨inner, rfl⟩ : ∃ inner, fuel = inner + 2 := ⟨fuel - 2, by omega⟩
    obtain ⟨k, rfl⟩ : ∃ k : Nat, remaining = (k : Int) := ⟨remaining.toNat, by omega⟩
    simp only [Int.toNat_ofNat] at hfuel ⊢
    obtain ⟨out, hout, hl, _⟩ :=
      writeRepeat_loop_appends w st hw (if b.length = 0 then [0] else b)
        (by split
            · simp
            · intro h; simp_all)
        inner (inner + 2) k sink (by omega)
    refine ⟨out, ?_, hl⟩
    simp only [writeRepeat, hr, if_false]
    exact hout

theorem writePad_appends_length {σ : Type} (w : Writer σ) (st : List Byte → σ)
    (hw : Appends w st) (random : Bool) (remaining : Int) (fuel : Nat)
    (sink : List Byte) (rnd : RandSource) (hfuel : remaining.toNat / 65536 + 2 ≤ fuel) :
    ∃ out, writePad w fuel (st sink) rnd remaining random = some (none, st (sink ++ out)) ∧
      out.length = remaining.toNat ∧ (random = false → out = List.replicate remaining.toNat 0) := by
  by_cases hr : remaining ≤ 0
  · exact ⟨[], by simp [writePad, hr], by simp [Int.toNat_eq_zero.mpr hr],
      by simp [Int.toNat_eq_zero.mpr hr]⟩
  · obtain ⟨inner, rfl⟩ : ∃ inner, fuel = inner + 2 := ⟨fuel - 2, by omega⟩
    obtain ⟨k, rfl⟩ : ∃ k : Nat, remaining = (k : Int) := ⟨remaining.toNat, by omega⟩
    simp only [Int.toNat_ofNat] at hfuel ⊢
    obtain ⟨out, hout, hl, hz⟩ :=
      writePad_loop_appends w st hw random inner (inner + 2) k sink rnd
        (List.replicate (64 * 1024) 0) (by rw [List.length_replicate]) (by omega)
    refine ⟨out, ?_, hl, hz⟩
    simp only [writePad, hr, if_false]
    exact hout

/-! ## Machine integers -/

theorem toInt64_of_range (x : Int) (hlo : -2 ^ 63 ≤ x) (hhi : x < 2 ^ 63) : toInt64 x = x := by
  unfold toInt64
  split <;> omega

theorem toUint64_of_range (x : Nat) (hhi : x < 2 ^ 64) : toUint64 (x : Int) = x := by
  unfold toUint64
  omega

theorem modeByte_eq_some (m : String) (mb : Byte) (h : modeByte m = some mb) :
    (m = "repeat" ∧ mb = 0) ∨ (m = "zero" ∧ mb = 1) ∨ (m = "random" ∧ mb = 2) := by
  unfold modeByte at h
  split at h
  · left; exact ⟨by assumption, by simpa using h.symm⟩
  · split at h
    · right; left; exact ⟨by assumption, by simpa using h.symm⟩
    · split at h
      · right; right; exact ⟨by assumption, by simpa using h.symm⟩
      · cases h

/-! ## The container on a writer that takes everything -/

theorem writeHeader_appends {σ : Type} (w : Writer σ) (st : List Byte → σ) (hw : Appends w st)
    (sink : List Byte) (h : header) :
    writeHeader w (st sink) h = (none, st (sink ++ headerBuf h)) := by
  simp only [writeHeader, hw sink (headerBuf h)]

theorem inflate_appends {σ : Type} (w : Writer σ) (st : List Byte → σ) (hw : Appends w st)
    (b : List Byte) (d : Int) (mode : String) (m : Byte) (fuel : Nat)
    (sink : List Byte) (rnd : RandSource)
    (hmode : modeByte (ToLower mode) = some m)
    (hlo : -2 ^ 63 ≤ d) (hhi : d < 2 ^ 63) (hb : 24 + (b.length : Int) < 2 ^ 63)
    (hfuel : d.toNat + 2 ≤ fuel) :
    ∃ fill, inflate w fuel (st sink) rnd b d mode =
        some (none, st (sink ++ (headerBuf ⟨magic, b.length, m, List.replicate 7 0⟩ ++ b ++ fill))) ∧
      (fill.length : Int) = max d (24 + (b.length : Int)) - (24 + (b.length : Int)) := by
  obtain ⟨inner, rfl⟩ : ∃ inner, fuel = inner + 2 := ⟨fuel - 2, by omega⟩
  have hmin : toInt64 (24 + (b.length : Int)) = 24 + (b.length : Int) :=
    toInt64_of_range _ (by omega) hb
  have hclamp : clampTotal d (b.length : Int) = max d (24 + (b.length : Int)) := by
    simp only [clampTotal, hmin]
    split
    · rw [max_eq_right (by omega)]
    · rw [max_eq_left (by omega)]
  have hrem : toInt64 (max d (24 + (b.length : Int)) - toInt64 (24 + (b.length : Int))) =
      max d (24 + (b.length : Int)) - (24 + (b.length : Int)) := by
    rw [hmin]
    apply toInt64_of_range
    · have := le_max_right d (24 + (b.length : Int)); omega
    · rcases max_choice d (24 + (b.length : Int)) with h | h <;> rw [h] <;> omega
  have hremfuel : (max d (24 + (b.length : Int)) - (24 + (b.length : Int))).toNat + 2 ≤ inner + 2 := by
    rcases max_choice d (24 + (b.length : Int)) with h | h <;> rw [h] <;> omega
  have hhdr : ({ ({ ({ header.zero with Magic := copy header.zero.Magic magic } : header) with
      OriginalSize := toUint64 (b.length : Int) } : header) with Mode := m } : header) =
      ⟨magic, b.length, m, List.replicate 7 0⟩ := by
    rw [toUint64_of_range _ (by omega)]
    rfl
  have hfill : ∃ fill,
      (if ToLower mode = "repeat" then
          writeRepeat w (inner + 2)
            (st (sink ++ headerBuf ⟨magic, b.length, m, List.replicate 7 0⟩ ++ b)) b
            (max d (24 + (b.length : Int)) - (24 + (b.length : Int)))
        else if ToLower mode = "zero" then
          writePad w (inner + 2)
            (st (sink ++ headerBuf ⟨magic, b.length, m, List.replicate 7 0⟩ ++ b)) rnd
            (max d (24 + (b.length : Int)) - (24 + (b.length : Int))) false
        else if ToLower mode = "random" then
          writePad w (inner + 2)
            (st (sink ++ headerBuf ⟨magic, b.length, m, List.replicate 7 0⟩ ++ b)) rnd
            (max d (24 + (b.length : Int)) - (24 + (b.length : Int))) true
        else some (none, st (sink ++ headerBuf ⟨magic, b.length, m, List.replicate 7 0⟩ ++ b))) =
        some (none, st (sink ++ headerBuf ⟨magic, b.length, m, List.replicate 7 0⟩ ++ b ++ fill)) ∧
      fill.length = (max d (24 + (b.length : Int)) - (24 + (b.length : Int))).toNat := by
    split
    · exact writeRepeat_appends_length w st hw _ _ _ _ hremfuel
    · split
      · obtain ⟨out, h1, h2, _⟩ := writePad_appends_length w st hw false
          (max d (24 + (b.length : Int)) - (24 + (b.length : Int))) (inner + 2)
          (sink ++ headerBuf ⟨magic, b.length, m, List.replicate 7 0⟩ ++ b) rnd (by omega)
        exact ⟨out, h1, h2⟩
      · split
        · obtain ⟨out, h1, h2, _⟩ := writePad_appends_length w st hw true
            (max d (24 + (b.length : Int)) - (24 + (b.length : Int))) (inner + 2)
            (sink ++ headerBuf ⟨magic, b.length, m, List.replicate 7 0⟩ ++ b) rnd (by omega)
          exact ⟨out, h1, h2⟩
        · rcases modeByte_eq_some _ _ hmode with h | h | h <;> simp_all
  obtain ⟨fill, hfill1, hfill2⟩ := hfill
  refine ⟨fill, ?_, ?_⟩
  · simp only [inflate, writeContainer, hmode, hhdr, hclamp, hrem, writeHeader_appends w st hw,
      writeAll_appends w st hw, hfill1]
    simp only [List.append_assoc]
  · rw [hfill2]
    have := le_max_right d (24 + (b.length : Int))
    omega

/-! ## The copy loop -/

theorem ReadFull_of_le (data : List Byte) (n : Nat) (h : n ≤ data.length) :
    ReadFull data n = (data.take n, none, data.drop n) := by
  simp [ReadFull, h]

theorem unbigzip_loop_copy (inPath outPath : String) (m : Byte) (input : List Byte)
    (hne : inPath ≠ outPath) :
    ∀ (fuel k off : Nat) (fs : FS) (written : List Byte),
      fs inPath = some input → fs outPath = some written → off + k ≤ input.length →
      (k + 65535) / 65536 + 1 ≤ fuel →
      unbigzip.loop inPath outPath m fuel fs off (k : Int) =
        some ((m, none), fs.set outPath (written ++ (input.drop off).take k)) := by
  intro fuel
  induction fuel with
  | zero => intro k off fs written _ _ _ hk; omega
  | succ fuel ih =>
    intro k off fs written hin hout hlen hk
    by_cases hk0 : k = 0
    · subst hk0
      have : fs.set outPath (written ++ List.take 0 (List.drop off input)) = fs := by
        funext q
        by_cases hq : q = outPath
        · subst hq; simp [FS.set, hout]
        · simp [FS.set, hq]
      rw [this]
      simp [unbigzip.loop]
    · have hpos : (k : Int) > 0 := by omega
      obtain ⟨n, hn⟩ : ∃ n : Nat, (n : Int) = (if (64 * 1024 : Int) > (k : Int) then (k : Int)
          else 64 * 1024) := by
        split
        · exact ⟨k, rfl⟩
        · exact ⟨65536, by norm_num⟩
      have hnle : n ≤ k ∧ 0 < n ∧ (k ≤ 65536 → n = k) ∧ (65536 < k → n = 65536) := by
        split at hn <;> omega
      have hread : ReadFull (((fs inPath).getD []).drop off) n =
          ((input.drop off).take n, none, (input.drop off).drop n) := by
        rw [hin]
        exact ReadFull_of_le _ _ (by simp; omega)
      have hrn : ((input.drop off).take n).length = n := by
        simp; omega
      have hstep := ih (k - n) (off + n) (fs.set outPath (written ++ (input.drop off).take n))
        (written ++ (input.drop off).take n)
        (by rw [FS.set_other _ _ _ _ hne]; exact hin) (FS.set_same _ _ _) (by omega) (by omega)
      have hsub : (k : Int) - (n : Int) = ((k - n : Nat) : Int) := by omega
      have hcat : written ++ List.take n (List.drop off input) ++
          List.take (k - n) (List.drop (off + n) input) = written ++ List.take k (List.drop off input) := by
        have hk2 : k = n + (k - n) := by omega
        conv_rhs => rw [hk2, List.take_add]
        rw [List.append_assoc, List.drop_drop]
      rw [FS.set_set, hcat] at hstep
      have hn0 : ¬ n = 0 := by omega
      simp only [unbigzip.loop, hpos, if_true, ← hn, Int.toNat_ofNat, hread, hrn, ne_eq,
        not_true_eq_false, false_and, if_false, hn0, fileWriter, hout, Option.getD_some, hsub]
      exact hstep

/-! ## Header codec: layout, round trip, acceptance -/

theorem headerBuf_eq (h : header) (hMagic : h.Magic.length = 8) :
    headerBuf h = h.Magic ++ PutUint64 h.OriginalSize ++ [h.Mode, 0, 0, 0, 0, 0, 0, 0] := by
  obtain ⟨M, n, m, R⟩ := h
  match M, hMagic with
  | [a0, a1, a2, a3, a4, a5, a6, a7], _ => simp [headerBuf, copy, PutUint64]

theorem headerBuf_length (h : header) : (headerBuf h).length = 24 := by
  simp only [headerBuf, copy, List.length_set, List.length_append, List.length_take,
    List.length_drop, List.length_replicate, PutUint64, List.length_cons, List.length_nil]
  omega

theorem readHeader_of_length (data : List Byte) (hlen : 24 ≤ data.length) :
    readHeader data =
      if data.take 8 ≠ magic then (Except.error Error.notBigzip, data.drop 24)
      else if data.getD 16 0 > 2 then (Except.error Error.invalidMode, data.drop 24)
      else (Except.ok { Magic := magic, OriginalSize := Uint64 ((data.drop 8).take 8),
                        Mode := data.getD 16 0, Reserved := List.replicate 7 0 }, data.drop 24) := by
  have hcopy : copy header.zero.Magic ((data.take 24).take 8) = data.take 8 := by
    simp [copy, header.zero, List.take_take]
    omega
  have h16 : (data.take 24).getD 16 0 = data.getD 16 0 := by
    simp [List.getD_eq_getElem?_getD, List.getElem?_take]
  have h8 : ((data.take 24).drop 8).take 8 = (data.drop 8).take 8 := by
    rw [List.drop_take, List.take_take]
    simp
  simp only [readHeader, ReadFull, hlen, if_true, ne_eq, not_true_eq_false, if_false, hcopy, h16, h8]
  by_cases hm : data.take 8 = magic
  · simp [hm, header.zero]
  · simp [hm]

theorem osOpen_of_file (os : OS) (fs : FS) (path : String) (data : List Byte)
    (hopen : os.openErr path = none) (hin : fs (os.file path) = some data) :
    osOpen os fs path = none := by
  simp [osOpen, hopen, hin]

theorem unbigzip_of_header (os : OS) (fs : FS) (inPath outPath : String) (input : List Byte)
    (n : Nat) (m : Byte) (fuel : Nat) (hopen : os.openErr inPath = none)
    (hcreate : os.createErr outPath = none) (hin : fs (os.file inPath) = some input)
    (hne : os.file inPath ≠ os.file outPath)
    (hmagic : input.take 8 = magic) (hsize : Uint64 ((input.drop 8).take 8) = n)
    (hmode : input.getD 16 0 = m) (hm : m ≤ 2) (hbody : 24 + n ≤ input.length)
    (hfile : input.length < 2 ^ 63) (hfuel : n / 65536 + 2 ≤ fuel) :
    unbigzip os fuel fs inPath outPath =
      some ((m, none), fs.set (os.file outPath) ((input.drop 24).take n)) := by
  have hhdr : (readHeader input).1 = Except.ok ⟨magic, n, m, List.replicate 7 0⟩ := by
    rw [readHeader_of_length input (by omega), if_neg (not_not.mpr hmagic), hmode,
      if_neg (not_lt.mpr hm), hsize]
  have hcopy := unbigzip_loop_copy (os.file inPath) (os.file outPath) m input hne fuel n 24
    (fs.set (os.file outPath) []) []
    (by rw [FS.set_other _ _ _ _ hne]; exact hin) (FS.set_same _ _ _) hbody (by omega)
  rw [FS.set_set, List.nil_append] at hcopy
  simp only [unbigzip, osOpen_of_file os fs inPath input hopen hin, hin, Option.getD_some, hhdr,
    hcreate, osCreate, toInt64_of_range (n : Int) (by omega) (by omega)]
  exact hcopy

/-- When `os.Create` fails on the output path, `unbigzip` returns its error (lines 409-412)
and no file changes, also after a valid header. -/
theorem unbigzip_create_fails (os : OS) (fs : FS) (inPath outPath : String)
    (input : List Byte) (m : Byte) (fuel : Nat) (err : Error)
    (hopen : os.openErr inPath = none) (hcreate : os.createErr outPath = some err)
    (hin : fs (os.file inPath) = some input) (hmagic : input.take 8 = magic)
    (hmode : input.getD 16 0 = m) (hm : m ≤ 2) (hlen : 24 ≤ input.length) :
    unbigzip os fuel fs inPath outPath = some ((0, some err), fs) := by
  have hhdr : (readHeader input).1 =
      Except.ok ⟨magic, Uint64 ((input.drop 8).take 8), m, List.replicate 7 0⟩ := by
    rw [readHeader_of_length input hlen, if_neg (not_not.mpr hmagic), hmode,
      if_neg (not_lt.mpr hm)]
  simp only [unbigzip, osOpen_of_file os fs inPath input hopen hin, hin, Option.getD_some, hhdr,
    hcreate]

theorem container_parts (n : Nat) (m : Byte) (r tail : List Byte) :
    (headerBuf ⟨magic, n, m, r⟩ ++ tail).take 8 = magic ∧
    ((headerBuf ⟨magic, n, m, r⟩ ++ tail).drop 8).take 8 = PutUint64 n ∧
    (headerBuf ⟨magic, n, m, r⟩ ++ tail).getD 16 0 = m ∧
    (headerBuf ⟨magic, n, m, r⟩ ++ tail).drop 24 = tail ∧
    (headerBuf ⟨magic, n, m, r⟩ ++ tail).take 24 = headerBuf ⟨magic, n, m, r⟩ := by
  have hlen := headerBuf_length ⟨magic, n, m, r⟩
  have heq : headerBuf ⟨magic, n, m, r⟩ = magic ++ PutUint64 n ++ [m, 0, 0, 0, 0, 0, 0, 0] :=
    headerBuf_eq ⟨magic, n, m, r⟩ rfl
  refine ⟨?_, ?_, ?_, List.drop_left' hlen, List.take_left' hlen⟩
  · rw [heq]
    simp [magic, PutUint64]
  · rw [heq]
    simp [magic, PutUint64]
  · rw [heq]
    simp [magic, PutUint64]

theorem modeByte_le (mode : String) (m : Byte) (h : modeByte mode = some m) : m ≤ 2 := by
  rcases modeByte_eq_some _ _ h with h | h | h <;> rw [h.2] <;> decide

/-- C5: for every header (any 8-byte magic, any 64-bit OriginalSize, any mode byte, any
Reserved field) `writeHeader` appends exactly 24 bytes to the sink without error: bytes 0..7
are the magic, bytes 8..15 are OriginalSize in unsigned little-endian, byte 16 is the mode and
bytes 17..23 are zero, whatever `h.Reserved` holds. -/
theorem writeHeader_layout (h : header) (sink : List Byte) (hMagic : h.Magic.length = 8)
    (hSize : h.OriginalSize < 2 ^ 64) :
    writeHeader bufWriter sink h = (none, sink ++ headerBuf h) ∧
    (headerBuf h).length = 24 ∧
    (headerBuf h).take 8 = h.Magic ∧
    (∑ i in Finset.range 8, ((headerBuf h).getD (8 + i) 0).val * 256 ^ i) = h.OriginalSize ∧
    (headerBuf h).getD 16 0 = h.Mode ∧
    ∀ i, 17 ≤ i → i < 24 → (headerBuf h).getD i 0 = 0 := by
  refine ⟨rfl, headerBuf_length h, ?_, ?_, ?_, ?_⟩
  · rw [headerBuf_eq h hMagic, List.append_assoc, List.take_left' hMagic]
  · rw [headerBuf_eq h hMagic]
    obtain ⟨M, n, m, R⟩ := h
    match M, hMagic with
    | [a0, a1, a2, a3, a4, a5, a6, a7], _ =>
      simp only [Finset.sum_range_succ, Finset.sum_range_zero, PutUint64, byte,
        Nat.shiftRight_eq_div_pow, List.cons_append, List.nil_append, List.getD_cons_succ,
        List.getD_cons_zero]
      simp only [] at hSize
      omega
  · rw [headerBuf_eq h hMagic]
    obtain ⟨M, n, m, R⟩ := h
    match M, hMagic with
    | [a0, a1, a2, a3, a4, a5, a6, a7], _ => simp [PutUint64]
  · intro i h17 h24
    rw [headerBuf_eq h hMagic]
    obtain ⟨M, n, m, R⟩ := h
    match M, hMagic with
    | [a0, a1, a2, a3, a4, a5, a6, a7], _ =>
      have : i = 17 ∨ i = 18 ∨ i = 19 ∨ i = 20 ∨ i = 21 ∨ i = 22 ∨ i = 23 := by omega
      rcases this with h | h | h | h | h | h | h <;> subst h <;> simp [PutUint64]

/-- Witness of C5: the header of the test `TestWriteHeader`, with a Reserved field that is
not zero. -/
theorem writeHeader_layout_witness :
    writeHeader bufWriter [] ⟨magic, 12345, 1, [9, 9, 9, 9, 9, 9, 9]⟩ =
        (none, [] ++ headerBuf ⟨magic, 12345, 1, [9, 9, 9, 9, 9, 9, 9]⟩) ∧
    (headerBuf ⟨magic, 12345, 1, [9, 9, 9, 9, 9, 9, 9]⟩).length = 24 ∧
    (headerBuf ⟨magic, 12345, 1, [9, 9, 9, 9, 9, 9, 9]⟩).take 8 = magic ∧
    (∑ i in Finset.range 8,
      ((headerBuf ⟨magic, 12345, 1, [9, 9, 9, 9, 9, 9, 9]⟩).getD (8 + i) 0).val * 256 ^ i) = 12345 ∧
    (headerBuf ⟨magic, 12345, 1, [9, 9, 9, 9, 9, 9, 9]⟩).getD 16 0 = 1 ∧
    ∀ i, 17 ≤ i → i < 24 → (headerBuf ⟨magic, 12345, 1, [9, 9, 9, 9, 9, 9, 9]⟩).getD i 0 = 0 :=
  writeHeader_layout ⟨magic, 12345, 1, [9, 9, 9, 9, 9, 9, 9]⟩ [] (by decide) (by decide)

/-- C6: for every OriginalSize below 2^64 and every mode in 0, 1, 2, `readHeader` applied to
the 24 bytes that `writeHeader` emits for the magic "BIGZIP11", that size and that mode
succeeds, consumes exactly these bytes and returns the same magic, size and mode. -/
theorem readHeader_writeHeader (n : Nat) (m : Byte) (reserved : List Byte)
    (hn : n < 2 ^ 64) (hm : m ≤ 2) :
    readHeader (writeHeader bufWriter [] ⟨magic, n, m, reserved⟩).2 =
      (Except.ok ⟨magic, n, m, List.replicate 7 0⟩, []) := by
  have hbuf : headerBuf ⟨magic, n, m, reserved⟩ = magic ++ PutUint64 n ++ [m, 0, 0, 0, 0, 0, 0, 0] :=
    headerBuf_eq _ rfl
  have hw : (writeHeader bufWriter [] ⟨magic, n, m, reserved⟩).2 =
      magic ++ PutUint64 n ++ [m, 0, 0, 0, 0, 0, 0, 0] := by
    simp [writeHeader, bufWriter, hbuf]
  rw [hw, readHeader_of_length _ (by simp [magic, PutUint64])]
  have h8 : ((magic ++ PutUint64 n ++ [m, 0, 0, 0, 0, 0, 0, 0]).drop 8).take 8 = PutUint64 n := by
    simp [magic, PutUint64]
  have ht : (magic ++ PutUint64 n ++ [m, 0, 0, 0, 0, 0, 0, 0]).take 8 = magic := by
    simp [magic, PutUint64]
  have h16 : (magic ++ PutUint64 n ++ [m, 0, 0, 0, 0, 0, 0, 0]).getD 16 0 = m := by
    simp [magic, PutUint64]
  have hd : (magic ++ PutUint64 n ++ [m, 0, 0, 0, 0, 0, 0, 0]).drop 24 = [] := by
    simp [magic, PutUint64]
  rw [h8, ht, h16, hd, Uint64_PutUint64, Nat.mod_eq_of_lt hn]
  simp [not_lt.mpr hm]

/-- Witness of C6: the header of the test `TestReadHeader`. -/
theorem readHeader_writeHeader_witness :
    readHeader (writeHeader bufWriter [] ⟨magic, 12345, 1, []⟩).2 =
      (Except.ok ⟨magic, 12345, 1, List.replicate 7 0⟩, []) :=
  readHeader_writeHeader 12345 1 [] (by decide) (by decide)

/-- C7: for every 24-byte buffer `readHeader` fails if and only if the first 8 bytes differ
from the magic "BIGZIP11" or byte 16 is above 2; two 24-byte buffers that agree on the first 8
bytes and on byte 16 are both accepted or both rejected, whatever their bytes 8..15 and
17..23 are. -/
theorem readHeader_fails_iff (buf : List Byte) (hlen : buf.length = 24) :
    ((∃ err, (readHeader buf).1 = Except.error err) ↔ (buf.take 8 ≠ magic ∨ buf.getD 16 0 > 2)) ∧
    ∀ buf2 : List Byte, buf2.length = 24 → buf2.take 8 = buf.take 8 →
      buf2.getD 16 0 = buf.getD 16 0 →
      ((∃ err, (readHeader buf2).1 = Except.error err) ↔ ∃ err, (readHeader buf).1 = Except.error err) := by
  have key : ∀ b : List Byte, b.length = 24 →
      ((∃ err, (readHeader b).1 = Except.error err) ↔ (b.take 8 ≠ magic ∨ b.getD 16 0 > 2)) := by
    intro b hb
    rw [readHeader_of_length b (by omega)]
    by_cases h1 : b.take 8 = magic
    · rw [if_neg (not_not.mpr h1)]
      by_cases h2 : b.getD 16 0 > 2
      · rw [if_pos h2]
        exact ⟨fun _ => Or.inr h2, fun _ => ⟨_, rfl⟩⟩
      · rw [if_neg h2]
        constructor
        · rintro ⟨err, herr⟩
          cases herr
        · rintro (h | h)
          · exact absurd h1 h
          · exact absurd h h2
    · rw [if_pos h1]
      exact ⟨fun _ => Or.inl h1, fun _ => ⟨_, rfl⟩⟩
  refine ⟨key buf hlen, ?_⟩
  intro buf2 hlen2 ht h16
  rw [key buf hlen, key buf2 hlen2, ht, h16]

/-- Witness of C7: the buffer of the test `TestReadHeaderInvalidMagic`. -/
theorem readHeader_fails_iff_witness :
    ((∃ err, (readHeader [73, 78, 86, 65, 76, 73, 68, 33, 0, 0, 0, 0, 0, 0, 0, 0,
        0, 0, 0, 0, 0, 0, 0, 0]).1 = Except.error err) ↔
      (([73, 78, 86, 65, 76, 73, 68, 33, 0, 0, 0, 0, 0, 0, 0, 0,
        0, 0, 0, 0, 0, 0, 0, 0] : List Byte).take 8 ≠ magic ∨
       ([73, 78, 86, 65, 76, 73, 68, 33, 0, 0, 0, 0, 0, 0, 0, 0,
        0, 0, 0, 0, 0, 0, 0, 0] : List Byte).getD 16 0 > 2)) ∧
    ∀ buf2 : List Byte, buf2.length = 24 →
      buf2.take 8 = ([73, 78, 86, 65, 76, 73, 68, 33, 0, 0, 0, 0, 0, 0, 0, 0,
        0, 0, 0, 0, 0, 0, 0, 0] : List Byte).take 8 →
      buf2.getD 16 0 = ([73, 78, 86, 65, 76, 73, 68, 33, 0, 0, 0, 0, 0, 0, 0, 0,
        0, 0, 0, 0, 0, 0, 0, 0] : List Byte).getD 16 0 →
      ((∃ err, (readHeader buf2).1 = Except.error err) ↔
        ∃ err, (readHeader [73, 78, 86, 65, 76, 73, 68, 33, 0, 0, 0, 0, 0, 0, 0, 0,
          0, 0, 0, 0, 0, 0, 0, 0]).1 = Except.error err) :=
  readHeader_fails_iff _ (by decide)

/-! ## Fill strategies -/

/-- C8: for every non-empty byte sequence `b` and every `remaining`, `writeRepeat` on
a buffer terminates without error and appends exactly `remaining` bytes (none when
`remaining` is negative), byte `i` of which is `b[i mod len(b)]`: `b` repeated from its start
and truncated. -/
theorem writeRepeat_tiling (b : List Byte) (remaining : Int) (fuel : Nat) (sink : List Byte)
    (hb : b ≠ []) (hfuel : remaining.toNat + 2 ≤ fuel) :
    ∃ out, writeRepeat bufWriter fuel sink b remaining = some (none, sink ++ out) ∧
      out.length = remaining.toNat ∧
      ∀ i, i < remaining.toNat → out[i]? = b[i % b.length]? := by
  by_cases hr : remaining ≤ 0
  · refine ⟨[], by simp [writeRepeat, hr], ?_, ?_⟩
    · simp [Int.toNat_eq_zero.mpr hr]
    · intro i hi
      rw [Int.toNat_eq_zero.mpr hr] at hi
      omega
  · obtain ⟨inner, rfl⟩ : ∃ inner, fuel = inner + 2 := ⟨fuel - 2, by omega⟩
    have hlen : ¬ b.length = 0 := fun h => hb (List.eq_nil_of_length_eq_zero h)
    obtain ⟨k, rfl⟩ : ∃ k : Nat, remaining = (k : Int) := ⟨remaining.toNat, by omega⟩
    simp only [Int.toNat_ofNat] at hfuel ⊢
    obtain ⟨out, hout, hl, hget⟩ :=
      writeRepeat_loop_appends bufWriter id bufWriter_appends b hb inner (inner + 2) k sink
        (by omega)
    refine ⟨out, ?_, hl, hget⟩
    simp only [writeRepeat, hr, if_false, hlen]
    exact hout

/-- Witness of C8: the test `TestWriteRepeat`, "hello" with `remaining = 10` gives
"hellohello". -/
theorem writeRepeat_tiling_witness :
    (∃ out, writeRepeat bufWriter 12 [] [104, 101, 108, 108, 111] 10 = some (none, [] ++ out) ∧
      out.length = (10 : Int).toNat ∧
      ∀ i, i < (10 : Int).toNat →
        out[i]? = ([104, 101, 108, 108, 111] : List Byte)[i % ([104, 101, 108, 108, 111] : List Byte).length]?) ∧
    writeRepeat bufWriter 12 [] [104, 101, 108, 108, 111] 10 =
      some (none, [104, 101, 108, 108, 111, 104, 101, 108, 108, 111]) :=
  ⟨writeRepeat_tiling [104, 101, 108, 108, 111] 10 12 [] (by decide) (by decide), by decide⟩

/-- C9: for the empty byte sequence and every `remaining`, `writeRepeat` on a buffer
terminates without error and appends exactly `remaining` bytes (none when `remaining` is
negative), all of them 0x00. -/
theorem writeRepeat_empty (remaining : Int) (fuel : Nat) (sink : List Byte)
    (hfuel : remaining.toNat + 2 ≤ fuel) :
    writeRepeat bufWriter fuel sink [] remaining =
      some (none, sink ++ List.replicate remaining.toNat 0) := by
  by_cases hr : remaining ≤ 0
  · simp [writeRepeat, hr, Int.toNat_eq_zero.mpr hr]
  · obtain ⟨inner, rfl⟩ : ∃ inner, fuel = inner + 2 := ⟨fuel - 2, by omega⟩
    obtain ⟨k, rfl⟩ : ∃ k : Nat, remaining = (k : Int) := ⟨remaining.toNat, by omega⟩
    simp only [Int.toNat_ofNat] at hfuel ⊢
    obtain ⟨out, hout, hl, hget⟩ :=
      writeRepeat_loop_appends bufWriter id bufWriter_appends [0] (by simp) inner (inner + 2) k
        sink (by omega)
    have hrep : out = List.replicate k 0 := by
      apply List.ext_getElem?
      intro i
      by_cases hi : i < k
      · rw [hget i hi]
        simp [Nat.mod_one, List.getElem?_replicate, hi]
      · rw [List.getElem?_eq_none (by omega), List.getElem?_eq_none (by simp; omega)]
    subst hrep
    simp only [writeRepeat, hr, if_false, List.length_nil, if_true]
    exact hout

/-- Witness of C9: the empty input with total size 100, that is `remaining = 76`. -/
theorem writeRepeat_empty_witness :
    writeRepeat bufWriter 78 [] [] 76 = some (none, [] ++ List.replicate (76 : Int).toNat 0) :=
  writeRepeat_empty 76 78 [] (by decide)

/-- C10: for every `remaining`, `writePad` with `random = false` on a buffer terminates
without error and appends exactly `remaining` bytes, all of them 0x00, also when `remaining`
is above the 64 KiB chunk or not a multiple of it; for `remaining <= 0` it appends nothing. -/
theorem writePad_zero (remaining : Int) (fuel : Nat) (sink : List Byte) (rnd : RandSource)
    (hfuel : remaining.toNat / 65536 + 2 ≤ fuel) :
    writePad bufWriter fuel sink rnd remaining false =
        some (none, sink ++ List.replicate remaining.toNat 0) ∧
    (remaining ≤ 0 → writePad bufWriter fuel sink rnd remaining false = some (none, sink)) := by
  refine ⟨?_, fun hr => by simp [writePad, hr]⟩
  by_cases hr : remaining ≤ 0
  · simp [writePad, hr, Int.toNat_eq_zero.mpr hr]
  · obtain ⟨inner, rfl⟩ : ∃ inner, fuel = inner + 2 := ⟨fuel - 2, by omega⟩
    obtain ⟨k, rfl⟩ : ∃ k : Nat, remaining = (k : Int) := ⟨remaining.toNat, by omega⟩
    simp only [Int.toNat_ofNat] at hfuel ⊢
    obtain ⟨out, hout, _, hz⟩ :=
      writePad_loop_appends bufWriter id bufWriter_appends false inner (inner + 2) k sink rnd
        (List.replicate (64 * 1024) 0) (by rw [List.length_replicate]) (by omega)
    rw [hz rfl] at hout
    simp only [writePad, hr, if_false]
    exact hout

/-- Witness of C10: 70000 bytes, more than one 64 KiB chunk and not a multiple of it. -/
theorem writePad_zero_witness :
    writePad bufWriter 3 [] (fun _ => 7) 70000 false =
        some (none, [] ++ List.replicate (70000 : Int).toNat 0) ∧
    ((70000 : Int) ≤ 0 → writePad bufWriter 3 [] (fun _ => 7) 70000 false = some (none, [])) :=
  writePad_zero 70000 3 [] (fun _ => 7) (by decide)

/-! ## Inflate and restore -/

/-- C2: when the input file can be opened, starts with a valid 24-byte header (magic
"BIGZIP11", OriginalSize `n` in little-endian at offset 8, mode byte `m <= 2` at offset 16)
and holds at least `n` bytes after it, and the output path can be created and names another
file, `unbigzip` succeeds, returns `m`, and leaves in the output file exactly the `n` bytes at
offsets 24 .. 24+n of the input: no byte of the fill is written, also for `n` above the
64 KiB copy buffer.  No other file changes. -/
theorem unbigzip_restores (os : OS) (fs : FS) (inPath outPath : String) (input : List Byte)
    (n : Nat) (m : Byte) (fuel : Nat) (hopen : os.openErr inPath = none)
    (hcreate : os.createErr outPath = none) (hin : fs (os.file inPath) = some input)
    (hne : os.file inPath ≠ os.file outPath)
    (hmagic : input.take 8 = magic) (hsize : Uint64 ((input.drop 8).take 8) = n)
    (hmode : input.getD 16 0 = m) (hm : m ≤ 2) (hbody : 24 + n ≤ input.length)
    (hfile : input.length < 2 ^ 63) (hfuel : n / 65536 + 2 ≤ fuel) :
    unbigzip os fuel fs inPath outPath =
      some ((m, none), fs.set (os.file outPath) ((input.drop 24).take n)) :=
  unbigzip_of_header os fs inPath outPath input n m fuel hopen hcreate hin hne hmagic hsize
    hmode hm hbody hfile hfuel

/-- Witness of C2: a container that declares 5 bytes ("hello") in mode 2 and carries two
fill bytes. -/
theorem unbigzip_restores_witness :
    unbigzip plainOS 2
        (fun p => if p = "in.bigzip" then
          some [66, 73, 71, 90, 73, 80, 49, 49, 5, 0, 0, 0, 0, 0, 0, 0, 2, 0, 0, 0, 0, 0, 0, 0,
            104, 101, 108, 108, 111, 1, 2] else none)
        "in.bigzip" "out" =
      some ((2, none),
        FS.set (fun p => if p = "in.bigzip" then
          some [66, 73, 71, 90, 73, 80, 49, 49, 5, 0, 0, 0, 0, 0, 0, 0, 2, 0, 0, 0, 0, 0, 0, 0,
            104, 101, 108, 108, 111, 1, 2] else none) (plainOS.file "out")
          ((([66, 73, 71, 90, 73, 80, 49, 49, 5, 0, 0, 0, 0, 0, 0, 0, 2, 0, 0, 0, 0, 0, 0, 0,
            104, 101, 108, 108, 111, 1, 2] : List Byte).drop 24).take 5)) :=
  unbigzip_restores plainOS _ "in.bigzip" "out"
    [66, 73, 71, 90, 73, 80, 49, 49, 5, 0, 0, 0, 0, 0, 0, 0, 2, 0, 0, 0, 0, 0, 0, 0,
      104, 101, 108, 108, 111, 1, 2]
    5 2 2 rfl rfl (by decide) (by decide) (by decide) (by decide)
    (by decide) (by decide) (by decide) (by decide) (by decide)

/-- C1: for every byte sequence `b`, every requested total `d`, every mode string that is
"repeat", "zero" or "random" up to case and every output of the random source, inflate into
the created file succeeds, and `unbigzip` of that file to an output path that can be created
and names another file succeeds, returns the mode byte and leaves exactly `b` in the output
file. -/
theorem inflate_unbigzip_roundtrip (os : OS) (fs : FS) (b : List Byte) (d : Int)
    (mode : String) (m : Byte) (rnd : RandSource) (fuel : Nat) (cPath oPath : String)
    (hmode : modeByte (ToLower mode) = some m)
    (hlo : -2 ^ 63 ≤ d) (hhi : d < 2 ^ 63) (hb : 24 + (b.length : Int) < 2 ^ 63)
    (hopen : os.openErr cPath = none) (hcreate : os.createErr oPath = none)
    (hne : os.file cPath ≠ os.file oPath) (hfuel : d.toNat + 2 ≤ fuel)
    (hfuel2 : b.length / 65536 + 2 ≤ fuel) :
    ∃ c, inflate (fileWriter (os.file cPath)) fuel (osCreate fs (os.file cPath)) rnd b d mode =
        some (none, fs.set (os.file cPath) c) ∧
      unbigzip os fuel (fs.set (os.file cPath) c) cPath oPath =
        some ((m, none), (fs.set (os.file cPath) c).set (os.file oPath) b) := by
  obtain ⟨fill, hc, hfill⟩ := inflate_appends (fileWriter (os.file cPath))
    (fun c => fs.set (os.file cPath) c) (fileWriter_appends fs (os.file cPath)) b d mode m fuel
    [] rnd hmode hlo hhi hb hfuel
  rw [List.nil_append, List.append_assoc] at hc
  refine ⟨_, hc, ?_⟩
  obtain ⟨h8, hsz, h16, hdrop, _⟩ := container_parts b.length m (List.replicate 7 0) (b ++ fill)
  have hlen : (headerBuf ⟨magic, b.length, m, List.replicate 7 0⟩ ++ (b ++ fill)).length <
      2 ^ 63 := by
    rw [List.length_append, headerBuf_length, List.length_append]
    have : ((24 + (b.length + fill.length) : Nat) : Int) < 2 ^ 63 := by
      push_cast
      rcases max_choice d (24 + (b.length : Int)) with h | h <;> rw [h] at hfill <;> omega
    exact_mod_cast this
  have h := unbigzip_of_header os (fs.set (os.file cPath) _) cPath oPath _ b.length m fuel
    hopen hcreate (FS.set_same _ _ _) hne h8
    (by rw [hsz, Uint64_PutUint64, Nat.mod_eq_of_lt (by omega)]) h16 (modeByte_le _ _ hmode)
    (by rw [List.length_append, headerBuf_length, List.length_append]; omega) hlen hfuel2
  rw [hdrop, List.take_left' rfl] at h
  exact h

/-- Witness of C1: "hello" inflated to 39 bytes in repeat mode, as in the repeat-tiling
example of the specification, and restored. -/
theorem inflate_unbigzip_roundtrip_witness :
    ∃ c, inflate (fileWriter (plainOS.file "hello.bigzip")) 41
          (osCreate (fun _ => none) (plainOS.file "hello.bigzip"))
          (fun _ => 7) [104, 101, 108, 108, 111] 39 "Repeat" =
        some (none, FS.set (fun _ => none) (plainOS.file "hello.bigzip") c) ∧
      unbigzip plainOS 41 (FS.set (fun _ => none) (plainOS.file "hello.bigzip") c)
          "hello.bigzip" "hello" =
        some ((0, none),
          (FS.set (fun _ => none) (plainOS.file "hello.bigzip") c).set (plainOS.file "hello")
            [104, 101, 108, 108, 111]) :=
  inflate_unbigzip_roundtrip plainOS (fun _ => none) [104, 101, 108, 108, 111] 39 "Repeat" 0
    (fun _ => 7) 41 "hello.bigzip" "hello" (by decide) (by norm_num) (by norm_num)
    (by norm_num) rfl rfl (by decide) (by decide) (by decide)

/-- C3: for every byte sequence `b`, every requested total `d` and every mode, the container
that inflate writes into the created file has length exactly `max(d, 24 + len(b))`; when `d`
is not above `24 + len(b)`, in particular for `d = 0`, it is the 24-byte header followed by
`b`, with no fill. -/
theorem inflate_length (fs : FS) (outPath : String) (b : List Byte) (d : Int) (mode : String)
    (m : Byte) (rnd : RandSource) (fuel : Nat)
    (hmode : modeByte (ToLower mode) = some m)
    (hlo : -2 ^ 63 ≤ d) (hhi : d < 2 ^ 63) (hb : 24 + (b.length : Int) < 2 ^ 63)
    (hfuel : d.toNat + 2 ≤ fuel) :
    ∃ c, inflate (fileWriter outPath) fuel (osCreate fs outPath) rnd b d mode =
        some (none, fs.set outPath c) ∧
      (c.length : Int) = max d (24 + (b.length : Int)) ∧
      (d ≤ 24 + (b.length : Int) →
        c = headerBuf ⟨magic, b.length, m, List.replicate 7 0⟩ ++ b ∧ c.length = 24 + b.length) := by
  obtain ⟨fill, hc, hfill⟩ := inflate_appends (fileWriter outPath) (fun c => fs.set outPath c)
    (fileWriter_appends fs outPath) b d mode m fuel [] rnd hmode hlo hhi hb hfuel
  rw [List.nil_append] at hc
  refine ⟨_, hc, ?_, ?_⟩
  · rw [List.length_append, List.length_append, headerBuf_length]
    push_cast
    omega
  · intro hd
    rw [max_eq_right hd] at hfill
    have hnil : fill = [] := List.eq_nil_of_length_eq_zero (by omega)
    subst hnil
    rw [List.append_nil]
    exact ⟨rfl, by rw [List.length_append, headerBuf_length]⟩

/-- Witness of C3: "hello" with the requested total 0 in zero mode. -/
theorem inflate_length_witness :
    ∃ c, inflate (fileWriter "out") 2 (osCreate (fun _ => none) "out") (fun _ => 7)
          [104, 101, 108, 108, 111] 0 "zero" = some (none, FS.set (fun _ => none) "out" c) ∧
      (c.length : Int) = max 0 (24 + (([104, 101, 108, 108, 111] : List Byte).length : Int)) ∧
      ((0 : Int) ≤ 24 + (([104, 101, 108, 108, 111] : List Byte).length : Int) →
        c = headerBuf ⟨magic, ([104, 101, 108, 108, 111] : List Byte).length, 1,
              List.replicate 7 0⟩ ++ [104, 101, 108, 108, 111] ∧
          c.length = 24 + ([104, 101, 108, 108, 111] : List Byte).length) :=
  inflate_length (fun _ => none) "out" [104, 101, 108, 108, 111] 0 "zero" 1 (fun _ => 7) 2
    (by decide) (by norm_num) (by norm_num) (by norm_num) (by decide)

/-- C4: for every byte sequence `b`, requested total and mode with mode byte `m`, the first
24 bytes of the container that inflate writes into the created file are the encoded header
with `OriginalSize = len(b)` and mode byte `m` (the magic at offset 0, `len(b)` in
little-endian at offset 8, `m` at offset 16), and the bytes at offsets 24 .. 24+len(b) are
`b`. -/
theorem inflate_layout (fs : FS) (outPath : String) (b : List Byte) (d : Int) (mode : String)
    (m : Byte) (rnd : RandSource) (fuel : Nat)
    (hmode : modeByte (ToLower mode) = some m)
    (hlo : -2 ^ 63 ≤ d) (hhi : d < 2 ^ 63) (hb : 24 + (b.length : Int) < 2 ^ 63)
    (hfuel : d.toNat + 2 ≤ fuel) :
    ∃ c, inflate (fileWriter outPath) fuel (osCreate fs outPath) rnd b d mode =
        some (none, fs.set outPath c) ∧
      c.take 24 = headerBuf ⟨magic, b.length, m, List.replicate 7 0⟩ ∧
      c.take 8 = magic ∧ Uint64 ((c.drop 8).take 8) = b.length ∧ c.getD 16 0 = m ∧
      (c.drop 24).take b.length = b := by
  obtain ⟨fill, hc, _⟩ := inflate_appends (fileWriter outPath) (fun c => fs.set outPath c)
    (fileWriter_appends fs outPath) b d mode m fuel [] rnd hmode hlo hhi hb hfuel
  rw [List.nil_append, List.append_assoc] at hc
  obtain ⟨h8, hsz, h16, hdrop, htake⟩ :=
    container_parts b.length m (List.replicate 7 0) (b ++ fill)
  exact ⟨_, hc, htake, h8, by rw [hsz, Uint64_PutUint64, Nat.mod_eq_of_lt (by omega)], h16,
    by rw [hdrop, List.take_left' rfl]⟩

/-- Witness of C4: "hello" inflated to 40 bytes in random mode. -/
theorem inflate_layout_witness :
    ∃ c, inflate (fileWriter "out") 42 (osCreate (fun _ => none) "out")
          (fun i => byte (3 * i + 1)) [104, 101, 108, 108, 111] 40 "RANDOM" =
        some (none, FS.set (fun _ => none) "out" c) ∧
      c.take 24 = headerBuf ⟨magic, ([104, 101, 108, 108, 111] : List Byte).length, 2,
        List.replicate 7 0⟩ ∧
      c.take 8 = magic ∧
      Uint64 ((c.drop 8).take 8) = ([104, 101, 108, 108, 111] : List Byte).length ∧
      c.getD 16 0 = 2 ∧
      (c.drop 24).take ([104, 101, 108, 108, 111] : List Byte).length =
        [104, 101, 108, 108, 111] :=
  inflate_layout (fun _ => none) "out" [104, 101, 108, 108, 111] 40 "RANDOM" 2
    (fun i => byte (3 * i + 1)) 42 (by decide) (by norm_num) (by norm_num) (by norm_num)
    (by decide)

/-! ## Restore of damaged containers -/

theorem FS.set_eq_self (fs : FS) (path : String) (data : List Byte) (h : fs path = some data) :
    fs.set path data = fs := by
  funext q
  by_cases hq : q = path
  · subst hq; simp [FS.set, h]
  · simp [FS.set, hq]

theorem ReadFull_of_short (data : List Byte) (n : Nat) (h0 : 0 < data.length)
    (h : data.length < n) : ReadFull data n = (data, some Error.ErrUnexpectedEOF, []) := by
  have h1 : ¬ n ≤ data.length := by omega
  have h2 : ¬ data.length = 0 := by omega
  simp only [ReadFull, h1, h2, if_false]

theorem ReadFull_of_empty (data : List Byte) (n : Nat) (h0 : data.length = 0) (h : 0 < n) :
    ReadFull data n = ([], some Error.EOF, []) := by
  have h1 : ¬ n ≤ data.length := by omega
  unfold ReadFull
  rw [if_neg h1, if_pos h0]

theorem unbigzip_loop_truncated (inPath outPath : String) (m : Byte) (input : List Byte)
    (hne : inPath ≠ outPath) :
    ∀ (fuel toCopy off : Nat) (fs : FS) (written : List Byte),
      fs inPath = some input → fs outPath = some written → off ≤ input.length →
      input.length - off < toCopy →
      (input.length - off + 65535) / 65536 + 1 ≤ fuel →
      unbigzip.loop inPath outPath m fuel fs off (toCopy : Int) =
        some ((0, some Error.EOF), fs.set outPath (written ++ input.drop off)) := by
  intro fuel
  induction fuel with
  | zero => intro toCopy off fs written _ _ _ _ hk; omega
  | succ fuel ih =>
    intro toCopy off fs written hin hout hoff hlt hk
    have hpos : (toCopy : Int) > 0 := by omega
    obtain ⟨n, hn⟩ : ∃ n : Nat, (n : Int) = (if (64 * 1024 : Int) > (toCopy : Int)
        then (toCopy : Int) else 64 * 1024) := by
      split
      · exact ⟨toCopy, rfl⟩
      · exact ⟨65536, by norm_num⟩
    have hnle : 0 < n ∧ n ≤ 65536 ∧ (toCopy ≤ 65536 → n = toCopy) ∧
        (65536 < toCopy → n = 65536) := by
      split at hn <;> omega
    have hdl : (input.drop off).length = input.length - off := List.length_drop off input
    by_cases havail : input.length - off = 0
    · -- nothing is left: the read reports `EOF`
      have hread : ReadFull (((fs inPath).getD []).drop off) n = ([], some Error.EOF, []) := by
        rw [hin]
        exact ReadFull_of_empty _ _ (by rw [Option.getD_some, hdl]; exact havail) hnle.1
      have hnil : input.drop off = [] := List.eq_nil_of_length_eq_zero (by rw [hdl]; exact havail)
      rw [hnil, List.append_nil, FS.set_eq_self fs outPath written hout]
      simp only [unbigzip.loop, hpos, if_true, ← hn, Int.toNat_ofNat, hread]
      simp
    · by_cases hfull : n ≤ input.length - off
      · -- a full round of 64 KiB
        have hn64 : n = 65536 := by omega
        have hread : ReadFull (((fs inPath).getD []).drop off) n =
            ((input.drop off).take n, none, (input.drop off).drop n) := by
          rw [hin]
          exact ReadFull_of_le _ _ (by rw [Option.getD_some, hdl]; exact hfull)
        have hrn : ((input.drop off).take n).length = n := by
          rw [List.length_take, hdl]; omega
        have hstep := ih (toCopy - n) (off + n)
          (fs.set outPath (written ++ (input.drop off).take n))
          (written ++ (input.drop off).take n)
          (by rw [FS.set_other _ _ _ _ hne]; exact hin) (FS.set_same _ _ _) (by omega)
          (by omega) (by omega)
        have hsub : (toCopy : Int) - (n : Int) = ((toCopy - n : Nat) : Int) := by omega
        have hcat : written ++ List.take n (List.drop off input) ++ List.drop (off + n) input =
            written ++ List.drop off input := by
          rw [List.append_assoc, ← List.drop_drop, List.take_append_drop]
        rw [FS.set_set, hcat] at hstep
        have hn0 : ¬ n = 0 := by omega
        simp only [unbigzip.loop, hpos, if_true, ← hn, Int.toNat_ofNat, hread, hrn, ne_eq,
          not_true_eq_false, false_and, if_false, hn0, fileWriter, hout, Option.getD_some, hsub]
        exact hstep
      · -- the last, short round: `ErrUnexpectedEOF` is let through
        have hread : ReadFull (((fs inPath).getD []).drop off) n =
            (input.drop off, some Error.ErrUnexpectedEOF, []) := by
          rw [hin]
          exact ReadFull_of_short _ _ (by rw [Option.getD_some, hdl]; omega)
            (by rw [Option.getD_some, hdl]; omega)
        have hstep := ih (toCopy - (input.length - off)) (off + (input.length - off))
          (fs.set outPath (written ++ input.drop off)) (written ++ input.drop off)
          (by rw [FS.set_other _ _ _ _ hne]; exact hin) (FS.set_same _ _ _) (by omega)
          (by omega) (by omega)
        have hsub : (toCopy : Int) - ((input.length - off : Nat) : Int) =
            ((toCopy - (input.length - off) : Nat) : Int) := by omega
        have hend : List.drop (off + (input.length - off)) input = [] :=
          List.drop_eq_nil_of_le (by omega)
        rw [FS.set_set, hend, List.append_nil] at hstep
        have hrn0 : ¬ input.length - off = 0 := havail
        simp only [unbigzip.loop, hpos, if_true, ← hn, Int.toNat_ofNat, hread, hdl, ne_eq,
          reduceCtorEq, not_false_eq_true, not_true_eq_false, and_false, true_and, if_false,
          hrn0, fileWriter, hout, Option.getD_some, hsub, Option.some.injEq]
        exact hstep

theorem unbigzip_of_truncated (os : OS) (fs : FS) (inPath outPath : String)
    (input : List Byte) (n : Nat) (m : Byte) (fuel : Nat) (hopen : os.openErr inPath = none)
    (hcreate : os.createErr outPath = none) (hin : fs (os.file inPath) = some input)
    (hne : os.file inPath ≠ os.file outPath)
    (hmagic : input.take 8 = magic) (hsize : Uint64 ((input.drop 8).take 8) = n)
    (hmode : input.getD 16 0 = m) (hm : m ≤ 2) (hlen : 24 ≤ input.length)
    (hn : n < 2 ^ 63) (hshort : input.length - 24 < n)
    (hfuel : (input.length - 24) / 65536 + 2 ≤ fuel) :
    unbigzip os fuel fs inPath outPath =
      some ((0, some Error.EOF), fs.set (os.file outPath) (input.drop 24)) := by
  have hhdr : (readHeader input).1 = Except.ok ⟨magic, n, m, List.replicate 7 0⟩ := by
    rw [readHeader_of_length input hlen, if_neg (not_not.mpr hmagic), hmode,
      if_neg (not_lt.mpr hm), hsize]
  have hcopy := unbigzip_loop_truncated (os.file inPath) (os.file outPath) m input hne fuel n
    24 (fs.set (os.file outPath) []) [] (by rw [FS.set_other _ _ _ _ hne]; exact hin)
    (FS.set_same _ _ _) hlen hshort (by omega)
  rw [FS.set_set, List.nil_append] at hcopy
  simp only [unbigzip, osOpen_of_file os fs inPath input hopen hin, hin, Option.getD_some, hhdr,
    hcreate, osCreate, toInt64_of_range (n : Int) (by omega) (by omega)]
  exact hcopy

theorem readHeader_of_short (data : List Byte) (hlen : data.length < 24) :
    ∃ err, (readHeader data).1 = Except.error err := by
  have h1 : ¬ 24 ≤ data.length := by omega
  by_cases h0 : data.length = 0
  · exact ⟨Error.EOF, by simp [readHeader, ReadFull, h1, h0]⟩
  · exact ⟨Error.ErrUnexpectedEOF, by simp [readHeader, ReadFull, h1, h0]⟩

/-- C11, the code at a truncated container: the header declares 5 bytes and 3 follow.
`unbigzip` writes the 3 bytes and then returns the error `io.EOF`, it does not return
success. -/
theorem unbigzip_truncated_returns_EOF :
    (unbigzip plainOS 5
        (fun p => if p = "in.bigzip" then
          some [66, 73, 71, 90, 73, 80, 49, 49, 5, 0, 0, 0, 0, 0, 0, 0, 0, 0, 0, 0, 0, 0, 0, 0,
            104, 101, 108] else none)
        "in.bigzip" "out").map (fun r => (r.1, r.2 "out")) =
      some ((0, some Error.EOF), some [104, 101, 108]) := by
  decide

/-- C12: when the input file can be opened, starts with a valid header that declares
`n < 2^63` bytes and holds only `k < n` bytes after it, and the output path can be created
and names another file, the output file that `unbigzip` leaves holds exactly these `k`
bytes, in order (and the call returns the error `io.EOF`). -/
theorem unbigzip_truncated_output (os : OS) (fs : FS) (inPath outPath : String)
    (input : List Byte) (n : Nat) (m : Byte) (fuel : Nat) (hopen : os.openErr inPath = none)
    (hcreate : os.createErr outPath = none) (hin : fs (os.file inPath) = some input)
    (hne : os.file inPath ≠ os.file outPath)
    (hmagic : input.take 8 = magic) (hsize : Uint64 ((input.drop 8).take 8) = n)
    (hmode : input.getD 16 0 = m) (hm : m ≤ 2) (hlen : 24 ≤ input.length)
    (hn : n < 2 ^ 63) (hshort : input.length - 24 < n)
    (hfuel : (input.length - 24) / 65536 + 2 ≤ fuel) :
    unbigzip os fuel fs inPath outPath =
      some ((0, some Error.EOF), fs.set (os.file outPath) (input.drop 24)) :=
  unbigzip_of_truncated os fs inPath outPath input n m fuel hopen hcreate hin hne hmagic hsize
    hmode hm hlen hn hshort hfuel

/-- Witness of C12: the header declares 5 bytes and 3 follow. -/
theorem unbigzip_truncated_output_witness :
    unbigzip plainOS 2
        (fun p => if p = "in.bigzip" then
          some [66, 73, 71, 90, 73, 80, 49, 49, 5, 0, 0, 0, 0, 0, 0, 0, 0, 0, 0, 0, 0, 0, 0, 0,
            104, 101, 108] else none)
        "in.bigzip" "out" =
      some ((0, some Error.EOF),
        FS.set (fun p => if p = "in.bigzip" then
          some [66, 73, 71, 90, 73, 80, 49, 49, 5, 0, 0, 0, 0, 0, 0, 0, 0, 0, 0, 0, 0, 0, 0, 0,
            104, 101, 108] else none) (plainOS.file "out")
          (([66, 73, 71, 90, 73, 80, 49, 49, 5, 0, 0, 0, 0, 0, 0, 0, 0, 0, 0, 0, 0, 0, 0, 0,
            104, 101, 108] : List Byte).drop 24)) :=
  unbigzip_truncated_output plainOS _ "in.bigzip" "out"
    [66, 73, 71, 90, 73, 80, 49, 49, 5, 0, 0, 0, 0, 0, 0, 0, 0, 0, 0, 0, 0, 0, 0, 0,
      104, 101, 108]
    5 0 2 rfl rfl (by decide) (by decide) (by decide) (by decide) (by decide) (by decide)
    (by decide) (by decide) (by decide) (by decide)

/-- C13: when `readHeader` rejects the input (fewer than 24 bytes, a magic other than
"BIGZIP11", or a mode byte above 2), `unbigzip` returns an error and the file system is
unchanged: the output file is neither created nor modified. -/
theorem unbigzip_rejects_without_output (os : OS) (fs : FS) (inPath outPath : String)
    (input : List Byte) (fuel : Nat) (hin : fs (os.file inPath) = some input)
    (hbad : input.length < 24 ∨ input.take 8 ≠ magic ∨ input.getD 16 0 > 2) :
    ∃ err, unbigzip os fuel fs inPath outPath = some ((0, some err), fs) := by
  have hrej : ∃ err, (readHeader input).1 = Except.error err := by
    by_cases hlen : input.length < 24
    · exact readHeader_of_short input hlen
    · rw [readHeader_of_length input (by omega)]
      by_cases h1 : input.take 8 = magic
      · rw [if_neg (not_not.mpr h1)]
        rcases hbad with h | h | h
        · exact absurd h hlen
        · exact absurd h1 h
        · rw [if_pos h]
          exact ⟨_, rfl⟩
      · rw [if_pos h1]
        exact ⟨_, rfl⟩
  obtain ⟨err, herr⟩ := hrej
  cases hopen : osOpen os fs inPath with
  | some e => exact ⟨e, by simp only [unbigzip, hopen]⟩
  | none => exact ⟨err, by simp only [unbigzip, hopen, hin, Option.getD_some, herr]⟩

/-- Witness of C13: the buffer of the test `TestReadHeaderInvalidMagic` as input file, with
an output file that exists. -/
theorem unbigzip_rejects_without_output_witness :
    ∃ err, unbigzip plainOS 3
        (fun p => if p = "in" then
          some [73, 78, 86, 65, 76, 73, 68, 33, 0, 0, 0, 0, 0, 0, 0, 0, 0, 0, 0, 0, 0, 0, 0, 0]
          else if p = "out" then some [1, 2, 3] else none)
        "in" "out" =
      some ((0, some err),
        fun p => if p = "in" then
          some [73, 78, 86, 65, 76, 73, 68, 33, 0, 0, 0, 0, 0, 0, 0, 0, 0, 0, 0, 0, 0, 0, 0, 0]
          else if p = "out" then some [1, 2, 3] else none) :=
  unbigzip_rejects_without_output plainOS _ "in" "out"
    [73, 78, 86, 65, 76, 73, 68, 33, 0, 0, 0, 0, 0, 0, 0, 0, 0, 0, 0, 0, 0, 0, 0, 0] 3
    (by decide) (by decide)

/-- C18: when the input file can be opened, the header is valid and declares an OriginalSize
of at least 2^63, and the output path can be created, the conversion of the size to `int64`
is negative and `unbigzip` copies nothing: it returns the mode of the header without error and
the output file is empty, whatever follows the header. -/
theorem unbigzip_top_bit (os : OS) (fs : FS) (inPath outPath : String) (input : List Byte)
    (n : Nat) (m : Byte) (fuel : Nat) (hopen : os.openErr inPath = none)
    (hcreate : os.createErr outPath = none) (hin : fs (os.file inPath) = some input)
    (hmagic : input.take 8 = magic) (hsize : Uint64 ((input.drop 8).take 8) = n)
    (hmode : input.getD 16 0 = m) (hm : m ≤ 2) (hlen : 24 ≤ input.length)
    (hn : 2 ^ 63 ≤ n) (hfuel : 1 ≤ fuel) :
    toInt64 (n : Int) < 0 ∧
    unbigzip os fuel fs inPath outPath = some ((m, none), fs.set (os.file outPath) []) := by
  have hlt : n < 2 ^ 64 := by rw [← hsize]; exact Uint64_lt _
  have hneg : toInt64 (n : Int) < 0 := by
    unfold toInt64
    split <;> omega
  have hhdr : (readHeader input).1 = Except.ok ⟨magic, n, m, List.replicate 7 0⟩ := by
    rw [readHeader_of_length input hlen, if_neg (not_not.mpr hmagic), hmode,
      if_neg (not_lt.mpr hm), hsize]
  obtain ⟨fuel, rfl⟩ : ∃ k, fuel = k + 1 := ⟨fuel - 1, by omega⟩
  refine ⟨hneg, ?_⟩
  have hnot : ¬ toInt64 (n : Int) > 0 := by omega
  have hloop : unbigzip.loop (os.file inPath) (os.file outPath) m (fuel + 1)
      (fs.set (os.file outPath) []) 24 (toInt64 (n : Int)) =
      some ((m, none), fs.set (os.file outPath) []) := by
    rw [unbigzip.loop, if_neg hnot]
  simp only [unbigzip, osOpen_of_file os fs inPath input hopen hin, hin, Option.getD_some, hhdr,
    hcreate, osCreate]
  exact hloop

/-- Witness of C18: the size field is 2^63 and three bytes follow the header. -/
theorem unbigzip_top_bit_witness :
    toInt64 ((9223372036854775808 : Nat) : Int) < 0 ∧
    unbigzip plainOS 1
        (fun p => if p = "in.bigzip" then
          some [66, 73, 71, 90, 73, 80, 49, 49, 0, 0, 0, 0, 0, 0, 0, 128, 1, 0, 0, 0, 0, 0, 0, 0,
            104, 101, 108] else none)
        "in.bigzip" "out" =
      some ((1, none),
        FS.set (fun p => if p = "in.bigzip" then
          some [66, 73, 71, 90, 73, 80, 49, 49, 0, 0, 0, 0, 0, 0, 0, 128, 1, 0, 0, 0, 0, 0, 0, 0,
            104, 101, 108] else none) (plainOS.file "out") []) :=
  unbigzip_top_bit plainOS _ "in.bigzip" "out"
    [66, 73, 71, 90, 73, 80, 49, 49, 0, 0, 0, 0, 0, 0, 0, 128, 1, 0, 0, 0, 0, 0, 0, 0,
      104, 101, 108]
    9223372036854775808 1 1 rfl rfl (by decide) (by decide) (by decide) (by decide) (by decide)
    (by decide) (by decide) (by decide)

/-! ## `writeAll` on writers with short writes -/

theorem writeAll_shortWrites {σ : Type} (w : Writer σ) (sink : σ → List Byte)
    (hw : ShortWrites w sink) :
    ∀ (fuel : Nat) (s : σ) (b : List Byte), b.length < fuel →
      ∃ s', writeAll w fuel s b = some (none, s') ∧ sink s' = sink s ++ b := by
  intro fuel
  induction fuel with
  | zero => intro s b hb; omega
  | succ fuel ih =>
    intro s b hb
    by_cases hlen : b.length > 0
    · have hne : b ≠ [] := fun h => by rw [h] at hlen; exact absurd hlen (by decide)
      obtain ⟨herr, h1, h2, hsink⟩ := hw s b hne
      obtain ⟨s', hs', hsink'⟩ := ih (w.Write s b).2.2 (b.drop (w.Write s b).1)
        (by rw [List.length_drop]; omega)
      refine ⟨s', ?_, ?_⟩
      · rw [writeAll, if_pos hlen]
        simp only [herr, ne_eq, not_true_eq_false, if_false, not_lt.mpr h2]
        exact hs'
      · rw [hsink', hsink, List.append_assoc, List.take_append_drop]
    · have hnil : b = [] := List.eq_nil_of_length_eq_zero (by omega)
      subst hnil
      exact ⟨s, by simp [writeAll], by simp⟩

theorem chunkWriter_shortWrites (k : Nat) (hk : 1 ≤ k) : ShortWrites (chunkWriter k) id := by
  intro s p hp
  have hlen : 0 < p.length := List.length_pos.mpr hp
  refine ⟨rfl, ?_, ?_, ?_⟩
  · simp only [chunkWriter]; omega
  · simp only [chunkWriter]; omega
  · simp only [chunkWriter, id]
    congr 1
    by_cases h : k ≤ p.length
    · rw [min_eq_left h]
    · rw [min_eq_right (by omega), List.take_of_length_le (by omega),
        List.take_of_length_le (by omega)]

/-- C19: for every byte sequence `b` and every writer that on each call takes some `n` with
`1 ≤ n ≤ len(p)` bytes without error (short writes allowed), `writeAll` terminates without
error and the sink has received exactly `b` after what it held, in order.  For any writer, an
error of `Write` is what `writeAll` returns, and after a `Write` without error `writeAll`
goes on with the bytes that were not taken. -/
theorem writeAll_delivers {σ : Type} (w : Writer σ) (sink : σ → List Byte) (s : σ)
    (b : List Byte) (fuel : Nat) (hw : ShortWrites w sink) (hfuel : b.length < fuel) :
    (∃ s', writeAll w fuel s b = some (none, s') ∧ sink s' = sink s ++ b) ∧
    (∀ {τ : Type} (w2 : Writer τ) (t : τ) (p : List Byte) (k : Nat), p ≠ [] →
      (∀ err, (w2.Write t p).2.1 = some err →
        writeAll w2 (k + 1) t p = some (some err, (w2.Write t p).2.2)) ∧
      ((w2.Write t p).2.1 = none → (w2.Write t p).1 ≤ p.length →
        writeAll w2 (k + 1) t p = writeAll w2 k (w2.Write t p).2.2 (p.drop (w2.Write t p).1))) := by
  refine ⟨writeAll_shortWrites w sink hw fuel s b hfuel, ?_⟩
  intro τ w2 t p k hp
  have hlen : p.length > 0 := List.length_pos.mpr hp
  constructor
  · intro err herr
    rw [writeAll, if_pos hlen]
    simp [herr]
  · intro herr hle
    rw [writeAll, if_pos hlen]
    simp only [herr, ne_eq, not_true_eq_false, if_false, not_lt.mpr hle]

/-- Witness of C19: "hello world", the data of the test `TestWriteAll`, through a writer that
takes three bytes at a time. -/
theorem writeAll_delivers_witness :
    (∃ s', writeAll (chunkWriter 3) 12 [] [104, 101, 108, 108, 111, 32, 119, 111, 114, 108, 100] =
        some (none, s') ∧
      id s' = id [] ++ [104, 101, 108, 108, 111, 32, 119, 111, 114, 108, 100]) ∧
    (∀ {τ : Type} (w2 : Writer τ) (t : τ) (p : List Byte) (k : Nat), p ≠ [] →
      (∀ err, (w2.Write t p).2.1 = some err →
        writeAll w2 (k + 1) t p = some (some err, (w2.Write t p).2.2)) ∧
      ((w2.Write t p).2.1 = none → (w2.Write t p).1 ≤ p.length →
        writeAll w2 (k + 1) t p = writeAll w2 k (w2.Write t p).2.2 (p.drop (w2.Write t p).1))) :=
  writeAll_delivers (chunkWriter 3) id []
    [104, 101, 108, 108, 111, 32, 119, 111, 114, 108, 100] 12
    (chunkWriter_shortWrites 3 (by decide)) (by decide)

/-! ## The configuration: mode string and size factor -/

theorem modeByte_eq_none (m : String)
    (h : ¬ (m = "repeat" ∨ m = "zero" ∨ m = "random")) : modeByte m = none := by
  have h1 : ¬ m = "repeat" := fun hm => h (Or.inl hm)
  have h2 : ¬ m = "zero" := fun hm => h (Or.inr (Or.inl hm))
  have h3 : ¬ m = "random" := fun hm => h (Or.inr (Or.inr hm))
  simp only [modeByte, h1, h2, h3, if_false]

theorem modeByte_of_name (m : String) (h : m = "repeat" ∨ m = "zero" ∨ m = "random") :
    ∃ mb, modeByte m = some mb ∧ modeString mb = m ∧ (m = "repeat" → mb = 0) ∧
      (m = "zero" → mb = 1) ∧ (m = "random" → mb = 2) := by
  rcases h with h | h | h <;> subst h
  · exact ⟨0, by decide, by decide, fun _ => rfl, by decide, by decide⟩
  · exact ⟨1, by decide, by decide, by decide, fun _ => rfl, by decide⟩
  · exact ⟨2, by decide, by decide, by decide, by decide, fun _ => rfl⟩

/-- C14: inflate accepts the mode string `s` if and only if the lower-cased `s` is "repeat",
"zero" or "random"; in that case the byte at offset 16 of the container it writes is 0, 1, 2
respectively and `modeString` of that byte is the lower-cased `s`; otherwise it returns the
error "unknown mode" and writes nothing. -/
theorem inflate_mode_mapping (fs : FS) (outPath : String) (b : List Byte) (d : Int)
    (s : String) (rnd : RandSource) (fuel : Nat)
    (hlo : -2 ^ 63 ≤ d) (hhi : d < 2 ^ 63) (hb : 24 + (b.length : Int) < 2 ^ 63)
    (hfuel : d.toNat + 2 ≤ fuel) :
    ((∃ fs1, inflate (fileWriter outPath) fuel (osCreate fs outPath) rnd b d s = some (none, fs1)) ↔
      (ToLower s = "repeat" ∨ ToLower s = "zero" ∨ ToLower s = "random")) ∧
    ((ToLower s = "repeat" ∨ ToLower s = "zero" ∨ ToLower s = "random") →
      ∃ c m, inflate (fileWriter outPath) fuel (osCreate fs outPath) rnd b d s =
          some (none, fs.set outPath c) ∧
        c.getD 16 0 = m ∧ modeString m = ToLower s ∧ (ToLower s = "repeat" → m = 0) ∧
        (ToLower s = "zero" → m = 1) ∧ (ToLower s = "random" → m = 2)) ∧
    (¬ (ToLower s = "repeat" ∨ ToLower s = "zero" ∨ ToLower s = "random") →
      inflate (fileWriter outPath) fuel (osCreate fs outPath) rnd b d s =
        some (some (Error.unknownMode s), osCreate fs outPath)) := by
  have hacc : (ToLower s = "repeat" ∨ ToLower s = "zero" ∨ ToLower s = "random") →
      ∃ c m, inflate (fileWriter outPath) fuel (osCreate fs outPath) rnd b d s =
          some (none, fs.set outPath c) ∧
        c.getD 16 0 = m ∧ modeString m = ToLower s ∧ (ToLower s = "repeat" → m = 0) ∧
        (ToLower s = "zero" → m = 1) ∧ (ToLower s = "random" → m = 2) := by
    intro hs
    obtain ⟨m, hm, hstr, h0, h1, h2⟩ := modeByte_of_name (ToLower s) hs
    obtain ⟨fill, hc, _⟩ := inflate_appends (fileWriter outPath) (fun c => fs.set outPath c)
      (fileWriter_appends fs outPath) b d s m fuel [] rnd hm hlo hhi hb hfuel
    rw [List.nil_append, List.append_assoc] at hc
    obtain ⟨_, _, h16, _, _⟩ := container_parts b.length m (List.replicate 7 0) (b ++ fill)
    exact ⟨_, m, hc, h16, hstr, h0, h1, h2⟩
  have hrej : ¬ (ToLower s = "repeat" ∨ ToLower s = "zero" ∨ ToLower s = "random") →
      inflate (fileWriter outPath) fuel (osCreate fs outPath) rnd b d s =
        some (some (Error.unknownMode s), osCreate fs outPath) := by
    intro hs
    simp only [inflate, writeContainer, modeByte_eq_none _ hs]
  refine ⟨⟨?_, ?_⟩, hacc, hrej⟩
  · rintro ⟨fs1, h⟩
    by_contra hs
    rw [hrej hs] at h
    simp at h
  · intro hs
    obtain ⟨c, _, hc, _⟩ := hacc hs
    exact ⟨_, hc⟩

/-- Witness of C14: the mode string "Zero" for "hello" with the requested total 40. -/
theorem inflate_mode_mapping_witness :
    ((∃ fs1, inflate (fileWriter "out") 42 (osCreate (fun _ => none) "out") (fun _ => 7)
        [104, 101, 108, 108, 111] 40 "Zero" = some (none, fs1)) ↔
      (ToLower "Zero" = "repeat" ∨ ToLower "Zero" = "zero" ∨ ToLower "Zero" = "random")) ∧
    ((ToLower "Zero" = "repeat" ∨ ToLower "Zero" = "zero" ∨ ToLower "Zero" = "random") →
      ∃ c m, inflate (fileWriter "out") 42 (osCreate (fun _ => none) "out") (fun _ => 7)
          [104, 101, 108, 108, 111] 40 "Zero" = some (none, FS.set (fun _ => none) "out" c) ∧
        c.getD 16 0 = m ∧ modeString m = ToLower "Zero" ∧ (ToLower "Zero" = "repeat" → m = 0) ∧
        (ToLower "Zero" = "zero" → m = 1) ∧ (ToLower "Zero" = "random" → m = 2)) ∧
    (¬ (ToLower "Zero" = "repeat" ∨ ToLower "Zero" = "zero" ∨ ToLower "Zero" = "random") →
      inflate (fileWriter "out") 42 (osCreate (fun _ => none) "out") (fun _ => 7)
          [104, 101, 108, 108, 111] 40 "Zero" =
        some (some (Error.unknownMode "Zero"), osCreate (fun _ => none) "out")) :=
  inflate_mode_mapping (fun _ => none) "out" [104, 101, 108, 108, 111] 40 "Zero" (fun _ => 7) 42
    (by norm_num) (by norm_num) (by norm_num) (by decide)

/-- C15, the code at an unknown mode: `run` in compress mode with the mode "bogus" returns
the error "unknown mode" only after `os.Create`, whatever line 92 computes.  Without
`-force` the output file "out.bigzip", which did not exist, is left behind empty; with
`-force` the existing file "out.bigzip" has lost its two bytes. -/
theorem run_unknown_mode_creates_output :
    ∀ ceilMul : Int → Rat → Int,
    (run plainOS bareNames ceilMul 5 (fun _ => 7)
        (fun p => if p = "a.txt" then some [1, 2] else none)
        ⟨"a.txt", "out.bigzip", 2, "bogus", false, false⟩).map
        (fun r => (r.1, r.2 "out.bigzip")) =
      some (some (Error.unknownMode "bogus"), some []) ∧
    (run plainOS bareNames ceilMul 5 (fun _ => 7)
        (fun p => if p = "a.txt" then some [1, 2]
          else if p = "out.bigzip" then some [9, 9] else none)
        ⟨"a.txt", "out.bigzip", 2, "bogus", false, true⟩).map
        (fun r => (r.1, r.2 "out.bigzip")) =
      some (some (Error.unknownMode "bogus"), some []) := by
  intro ceilMul
  constructor <;> rfl

/-- C16: for every configuration in compress mode whose input file exists and whose factor
is below 1.0, `run` returns an error and the file system is unchanged: no output file is
created or modified.  When the input can be opened and its size read, the error is
"-factor must be >= 1.0". -/
theorem run_rejects_small_factor (os : OS) (lib : Library) (ceilMul : Int → Rat → Int)
    (fuel : Nat) (rnd : RandSource) (fs : FS) (cfg : config) (data : List Byte)
    (hinput : cfg.input ≠ "") (hin : fs (os.file cfg.input) = some data)
    (hunbig : cfg.unbig = false) (hfactor : cfg.factor < 1) :
    (∃ err, run os lib ceilMul fuel rnd fs cfg = some (some err, fs)) ∧
    (os.openErr cfg.input = none → os.fstatErr cfg.input = none →
      run os lib ceilMul fuel rnd fs cfg = some (some Error.factorTooSmall, fs)) := by
  have hexact : os.openErr cfg.input = none → os.fstatErr cfg.input = none →
      run os lib ceilMul fuel rnd fs cfg = some (some Error.factorTooSmall, fs) := by
    intro hopen hfstat
    simp only [run, hinput, if_false, osOpen_of_file os fs cfg.input data hopen hin, hunbig,
      Bool.false_eq_true, hfstat, hfactor, if_true]
  refine ⟨?_, hexact⟩
  cases hopen : os.openErr cfg.input with
  | some e =>
    refine ⟨Error.wrapped "failed to open input" e, ?_⟩
    simp only [run, hinput, if_false, osOpen, hopen]
  | none =>
    cases hfstat : os.fstatErr cfg.input with
    | some e =>
      refine ⟨Error.wrapped "failed to stat input" e, ?_⟩
      simp only [run, hinput, if_false, osOpen_of_file os fs cfg.input data hopen hin, hunbig,
        Bool.false_eq_true, hfstat]
    | none => exact ⟨_, hexact hopen hfstat⟩

/-- Witness of C16: the factor 1/2 on an existing two-byte input. -/
theorem run_rejects_small_factor_witness :
    (∃ err, run plainOS bareNames (fun n _ => n) 5 (fun _ => 7)
        (fun p => if p = "a.txt" then some [1, 2] else none)
        ⟨"a.txt", "out.bigzip", 1 / 2, "repeat", false, false⟩ =
      some (some err, fun p => if p = "a.txt" then some [1, 2] else none)) ∧
    (plainOS.openErr "a.txt" = none → plainOS.fstatErr "a.txt" = none →
      run plainOS bareNames (fun n _ => n) 5 (fun _ => 7)
          (fun p => if p = "a.txt" then some [1, 2] else none)
          ⟨"a.txt", "out.bigzip", 1 / 2, "repeat", false, false⟩ =
        some (some Error.factorTooSmall,
          fun p => if p = "a.txt" then some [1, 2] else none)) :=
  run_rejects_small_factor plainOS bareNames (fun n _ => n) 5 (fun _ => 7) _
    ⟨"a.txt", "out.bigzip", 1 / 2, "repeat", false, false⟩ [1, 2] (by decide) (by simp [plainOS])
    (by decide) (by norm_num)

/-! ## Overwrite protection -/

theorem osStat_notExist (os : OS) (fs : FS) (path : String)
    (h : osStat os fs path = StatResult.notExist) : fs (os.file path) = none := by
  unfold osStat at h
  split at h
  · cases h
  · by_contra hc
    rw [if_neg hc] at h
    cases h

theorem osStat_of_total (os : OS) (fs : FS) (path : String) (hstat : os.statErr path = none) :
    osStat os fs path =
      if fs (os.file path) = none then StatResult.notExist else StatResult.found := by
  simp only [osStat, hstat]

theorem findUniquePath_eq_loop (os : OS) (lib : Library) (fuel : Nat) (fs : FS)
    (path : String) :
    findUniquePath os lib fuel fs path =
      if osStat os fs path = StatResult.notExist then some path
      else findUniquePath.loop os fs (findUniquePath.candidate lib path) fuel 1 := by
  unfold findUniquePath
  by_cases h : osStat os fs path = StatResult.notExist
  · rw [if_pos h, if_pos h]
  · rw [if_neg h, if_neg h]
    by_cases hs : HasSuffix (lib.Base path) ".bigzip" = true
    · have hc : findUniquePath.candidate lib path = fun i =>
          lib.Join (lib.Dir path)
            (TrimSuffix (TrimSuffix (lib.Base path) ".bigzip")
                (lib.Ext (TrimSuffix (lib.Base path) ".bigzip")) ++ "_" ++ toString i ++
              lib.Ext (TrimSuffix (lib.Base path) ".bigzip") ++ ".bigzip") := by
        funext i
        simp only [findUniquePath.candidate, hs, if_true]
      simp only [hs, if_true, hc]
    · have hc : findUniquePath.candidate lib path = fun i =>
          lib.Join (lib.Dir path)
            (TrimSuffix (lib.Base path) (lib.Ext (lib.Base path)) ++ "_" ++ toString i ++
              lib.Ext (lib.Base path)) := by
        funext i
        simp only [findUniquePath.candidate, hs, Bool.false_eq_true, if_false]
      simp only [hs, Bool.false_eq_true, if_false, hc]

theorem findUniquePath_loop_smallest (os : OS) (fs : FS) (cand : Nat → String) :
    ∀ (fuel i0 i : Nat), i0 ≤ i → osStat os fs (cand i) = StatResult.notExist →
      (∀ j, i0 ≤ j → j < i → osStat os fs (cand j) ≠ StatResult.notExist) → i - i0 < fuel →
      findUniquePath.loop os fs cand fuel i0 = some (cand i) := by
  intro fuel
  induction fuel with
  | zero => intro i0 i _ _ _ hf; omega
  | succ fuel ih =>
    intro i0 i hle hfree hbusy hf
    by_cases heq : i0 = i
    · subst heq
      simp only [findUniquePath.loop, hfree, if_true]
    · have hb : ¬ osStat os fs (cand i0) = StatResult.notExist :=
        hbusy i0 (le_refl _) (by omega)
      simp only [findUniquePath.loop, hb, if_false]
      exact ih (i0 + 1) i (by omega) hfree (fun j hj hji => hbusy j (by omega) hji) (by omega)

theorem findUniquePath_loop_free (os : OS) (fs : FS) (cand : Nat → String) :
    ∀ (fuel i0 : Nat) (q : String), findUniquePath.loop os fs cand fuel i0 = some q →
      osStat os fs q = StatResult.notExist := by
  intro fuel
  induction fuel with
  | zero => intro i0 q h; simp [findUniquePath.loop] at h
  | succ fuel ih =>
    intro i0 q h
    by_cases hfree : osStat os fs (cand i0) = StatResult.notExist
    · simp only [findUniquePath.loop, hfree, if_true, Option.some.injEq] at h
      rw [← h]; exact hfree
    · simp only [findUniquePath.loop, hfree, if_false] at h
      exact ih (i0 + 1) q h

theorem findUniquePath_loop_none (os : OS) (fs : FS) (cand : Nat → String)
    (hall : ∀ i, osStat os fs (cand i) ≠ StatResult.notExist) :
    ∀ (fuel i0 : Nat), findUniquePath.loop os fs cand fuel i0 = none := by
  intro fuel
  induction fuel with
  | zero => intro i0; rfl
  | succ fuel ih =>
    intro i0
    simp only [findUniquePath.loop, hall i0, if_false]
    exact ih (i0 + 1)

theorem TrimSuffix_length (s t : String) : s.length ≤ (TrimSuffix s t).length + t.length := by
  unfold TrimSuffix
  split
  · simp only [String.length, List.length_take]
    omega
  · omega

theorem candidate_bareNames_length (path : String) (i : Nat) :
    path.length + 1 ≤ (findUniquePath.candidate bareNames path i).length := by
  have h1 := TrimSuffix_length path ".bigzip"
  have h2 := TrimSuffix_length (TrimSuffix path ".bigzip") (Ext (TrimSuffix path ".bigzip"))
  have h3 := TrimSuffix_length path (Ext path)
  have h7 : (".bigzip" : String).length = 7 := by decide
  have hu : ("_" : String).length = 1 := by decide
  unfold findUniquePath.candidate
  simp only [bareNames]
  split
  · simp only [String.length_append]
    omega
  · simp only [String.length_append]
    omega

theorem exists_free_counter (E : Finset String) (cand : Nat → String)
    (hinj : Set.InjOn cand (Finset.Icc 1 (E.card + 1) : Finset Nat)) :
    ∃ i, 1 ≤ i ∧ i ≤ E.card + 1 ∧ cand i ∉ E ∧ ∀ j, 1 ≤ j → j < i → cand j ∈ E := by
  have hex : ∃ i, 1 ≤ i ∧ i ≤ E.card + 1 ∧ cand i ∉ E := by
    by_contra hall
    push_neg at hall
    have hmaps : ∀ i ∈ Finset.Icc 1 (E.card + 1), cand i ∈ E := by
      intro i hi
      rw [Finset.mem_Icc] at hi
      exact hall i hi.1 hi.2
    have hcard := Finset.card_le_card_of_injOn cand hmaps hinj
    rw [Nat.card_Icc] at hcard
    omega
  classical
  refine ⟨Nat.find hex, (Nat.find_spec hex).1, (Nat.find_spec hex).2.1,
    (Nat.find_spec hex).2.2, ?_⟩
  intro j hj1 hji
  have hmin := Nat.find_min hex hji
  by_contra hjE
  exact hmin ⟨hj1, by have := (Nat.find_spec hex).2.1; omega, hjE⟩

theorem writeAll_preserves {σ : Type} (w : Writer σ) (P : σ → Prop)
    (hP : ∀ s p, P s → P (w.Write s p).2.2) :
    ∀ (fuel : Nat) (s : σ) (b : List Byte) (r : Option Error) (s' : σ),
      P s → writeAll w fuel s b = some (r, s') → P s' := by
  intro fuel
  induction fuel with
  | zero => intro s b r s' _ h; simp [writeAll] at h
  | succ fuel ih =>
    intro s b r s' hs h
    rw [writeAll] at h
    split at h
    · dsimp only at h
      split at h
      · simp only [Option.some.injEq, Prod.mk.injEq] at h
        rw [← h.2]; exact hP s b hs
      · split at h
        · simp only [Option.some.injEq, Prod.mk.injEq] at h
          rw [← h.2]; exact hP s b hs
        · exact ih _ _ r s' (hP s b hs) h
    · simp only [Option.some.injEq, Prod.mk.injEq] at h
      rw [← h.2]; exact hs

theorem writeRepeat_loop_preserves {σ : Type} (w : Writer σ) (P : σ → Prop)
    (hP : ∀ s p, P s → P (w.Write s p).2.2) (chunk : List Byte) (inner : Nat) :
    ∀ (fuel : Nat) (s : σ) (remaining : Int) (r : Option Error) (s' : σ),
      P s → writeRepeat.loop w chunk inner fuel s remaining = some (r, s') → P s' := by
  intro fuel
  induction fuel with
  | zero => intro s remaining r s' _ h; simp [writeRepeat.loop] at h
  | succ fuel ih =>
    intro s remaining r s' hs h
    rw [writeRepeat.loop] at h
    split at h
    · dsimp only at h
      split at h
      · cases h
      · rename_i err s1 hwa
        simp only [Option.some.injEq, Prod.mk.injEq] at h
        rw [← h.2]
        exact writeAll_preserves w P hP _ _ _ _ _ hs hwa
      · rename_i s1 hwa
        exact ih _ _ r s' (writeAll_preserves w P hP _ _ _ _ _ hs hwa) h
    · simp only [Option.some.injEq, Prod.mk.injEq] at h
      rw [← h.2]; exact hs

theorem writePad_loop_preserves {σ : Type} (w : Writer σ) (P : σ → Prop)
    (hP : ∀ s p, P s → P (w.Write s p).2.2) (random : Bool) (inner : Nat) :
    ∀ (fuel : Nat) (s : σ) (rnd : RandSource) (buf : List Byte) (remaining : Int)
      (r : Option Error) (s' : σ),
      P s → writePad.loop w random inner fuel s rnd buf remaining = some (r, s') → P s' := by
  intro fuel
  induction fuel with
  | zero => intro s rnd buf remaining r s' _ h; simp [writePad.loop] at h
  | succ fuel ih =>
    intro s rnd buf remaining r s' hs h
    rw [writePad.loop] at h
    split at h
    · dsimp only at h
      split at h
      · cases h
      · rename_i err s1 hwa
        simp only [Option.some.injEq, Prod.mk.injEq] at h
        rw [← h.2]
        exact writeAll_preserves w P hP _ _ _ _ _ hs hwa
      · rename_i s1 hwa
        exact ih _ _ _ _ r s' (writeAll_preserves w P hP _ _ _ _ _ hs hwa) h
    · simp only [Option.some.injEq, Prod.mk.injEq] at h
      rw [← h.2]; exact hs

theorem writeRepeat_preserves {σ : Type} (w : Writer σ) (P : σ → Prop)
    (hP : ∀ s p, P s → P (w.Write s p).2.2) (fuel : Nat) (s : σ) (inData : List Byte)
    (remaining : Int) (r : Option Error) (s' : σ) (hs : P s)
    (h : writeRepeat w fuel s inData remaining = some (r, s')) : P s' := by
  rw [writeRepeat] at h
  split at h
  · simp only [Option.some.injEq, Prod.mk.injEq] at h
    rw [← h.2]; exact hs
  · exact writeRepeat_loop_preserves w P hP _ _ _ _ _ _ _ hs h

theorem writePad_preserves {σ : Type} (w : Writer σ) (P : σ → Prop)
    (hP : ∀ s p, P s → P (w.Write s p).2.2) (fuel : Nat) (s : σ) (rnd : RandSource)
    (remaining : Int) (random : Bool) (r : Option Error) (s' : σ) (hs : P s)
    (h : writePad w fuel s rnd remaining random = some (r, s')) : P s' := by
  rw [writePad] at h
  split at h
  · simp only [Option.some.injEq, Prod.mk.injEq] at h
    rw [← h.2]; exact hs
  · exact writePad_loop_preserves w P hP _ _ _ _ _ _ _ _ _ hs h

theorem writeContainer_preserves {σ : Type} (w : Writer σ) (P : σ → Prop)
    (hP : ∀ s p, P s → P (w.Write s p).2.2) (fuel : Nat) (s : σ) (rnd : RandSource)
    (inData : List Byte) (desiredTotal : Int) (mode : String) (r : Option Error) (s' : σ)
    (hs : P s) (h : writeContainer w fuel s rnd inData desiredTotal mode = some (r, s')) :
    P s' := by
  unfold writeContainer at h
  dsimp only at h
  split at h
  · simp only [Option.some.injEq, Prod.mk.injEq] at h
    rw [← h.2]; exact hs
  · split at h
    · rename_i err s1 hwh
      simp only [Option.some.injEq, Prod.mk.injEq] at h
      have hs1 : s1 = (w.Write s (headerBuf _)).2.2 := (congrArg Prod.snd hwh).symm
      rw [← h.2, hs1]; exact hP _ _ hs
    · rename_i s1 hwh
      have hs1 : s1 = (w.Write s (headerBuf _)).2.2 := (congrArg Prod.snd hwh).symm
      have hP1 : P s1 := by rw [hs1]; exact hP _ _ hs
      split at h
      · cases h
      · rename_i err s2 hwa
        simp only [Option.some.injEq, Prod.mk.injEq] at h
        rw [← h.2]
        exact writeAll_preserves w P hP _ _ _ _ _ hP1 hwa
      · rename_i s2 hwa
        have hP2 : P s2 := writeAll_preserves w P hP _ _ _ _ _ hP1 hwa
        split at h
        · cases h
        · rename_i err s3 hfill
          simp only [Option.some.injEq, Prod.mk.injEq] at h
          rw [← h.2]
          split at hfill
          · exact writeRepeat_preserves w P hP _ _ _ _ _ _ hP2 hfill
          · split at hfill
            · exact writePad_preserves w P hP _ _ _ _ _ _ _ hP2 hfill
            · split at hfill
              · exact writePad_preserves w P hP _ _ _ _ _ _ _ hP2 hfill
              · simp only [Option.some.injEq, Prod.mk.injEq] at hfill
                rw [← hfill.2]; exact hP2
        · rename_i s3 hfill
          simp only [Option.some.injEq, Prod.mk.injEq] at h
          rw [← h.2]
          split at hfill
          · exact writeRepeat_preserves w P hP _ _ _ _ _ _ hP2 hfill
          · split at hfill
            · exact writePad_preserves w P hP _ _ _ _ _ _ _ hP2 hfill
            · split at hfill
              · exact writePad_preserves w P hP _ _ _ _ _ _ _ hP2 hfill
              · simp only [Option.some.injEq, Prod.mk.injEq] at hfill
                rw [← hfill.2]; exact hP2

theorem unbigzip_loop_frame (inPath outPath : String) (m : Byte) :
    ∀ (fuel : Nat) (fs : FS) (off : Nat) (toCopy : Int) (r : Byte × Option Error) (fs' : FS),
      unbigzip.loop inPath outPath m fuel fs off toCopy = some (r, fs') →
      ∀ q, q ≠ outPath → fs' q = fs q := by
  intro fuel
  induction fuel with
  | zero => intro fs off toCopy r fs' h; simp [unbigzip.loop] at h
  | succ fuel ih =>
    intro fs off toCopy r fs' h q hq
    rw [unbigzip.loop] at h
    by_cases hpos : toCopy > 0
    · rw [if_pos hpos] at h
      dsimp only at h
      by_cases h1 : (ReadFull (((fs inPath).getD []).drop off)
          (if (64 * 1024 : Int) > toCopy then toCopy else 64 * 1024).toNat).2.1 ≠ none ∧
          (ReadFull (((fs inPath).getD []).drop off)
            (if (64 * 1024 : Int) > toCopy then toCopy else 64 * 1024).toNat).2.1 ≠
            some Error.ErrUnexpectedEOF
      · rw [if_pos h1] at h
        simp only [Option.some.injEq, Prod.mk.injEq] at h
        rw [← h.2]
      · rw [if_neg h1] at h
        split_ifs at h
        all_goals first
          | (simp only [Option.some.injEq, Prod.mk.injEq] at h; rw [← h.2]; done)
          | (simp only [Option.some.injEq, Prod.mk.injEq] at h; rw [← h.2]
             exact FS.set_other _ _ _ _ hq)
          | (rw [ih _ _ _ r fs' h q hq]; exact FS.set_other _ _ _ _ hq)
    · rw [if_neg hpos] at h
      simp only [Option.some.injEq, Prod.mk.injEq] at h
      rw [← h.2]

theorem unbigzip_frame (os : OS) (fuel : Nat) (fs : FS) (inPath outPath : String)
    (r : Byte × Option Error) (fs' : FS)
    (h : unbigzip os fuel fs inPath outPath = some (r, fs')) :
    ∀ q, q ≠ os.file outPath → fs' q = fs q := by
  intro q hq
  unfold unbigzip at h
  split at h
  · simp only [Option.some.injEq, Prod.mk.injEq] at h
    rw [← h.2]
  · split at h
    · simp only [Option.some.injEq, Prod.mk.injEq] at h
      rw [← h.2]
    · split at h
      · simp only [Option.some.injEq, Prod.mk.injEq] at h
        rw [← h.2]
      · dsimp only at h
        rw [unbigzip_loop_frame _ _ _ _ _ _ _ r fs' h q hq]
        exact FS.set_other _ _ _ _ hq

theorem uniqueUnlessForce_free (os : OS) (lib : Library) (fuel : Nat) (fs : FS)
    (path out : String) (hstat : ∀ p, os.statErr p = none)
    (h : uniqueUnlessForce os lib fuel fs false path = some out) : fs (os.file out) = none := by
  unfold uniqueUnlessForce at h
  simp only [Bool.not_false, if_true] at h
  split at h
  · rw [findUniquePath_eq_loop] at h
    split at h
    · rename_i hfree
      simp only [Option.some.injEq] at h
      rw [← h]
      exact osStat_notExist os fs path hfree
    · exact osStat_notExist os fs out (findUniquePath_loop_free _ _ _ _ _ _ h)
  · rename_i hnot
    simp only [Option.some.injEq] at h
    rw [← h]
    rw [osStat_of_total os fs path (hstat path)] at hnot
    by_contra hc
    rw [if_neg hc] at hnot
    exact hnot rfl

theorem run_preserves_existing (os : OS) (lib : Library) (ceilMul : Int → Rat → Int)
    (fuel : Nat) (rnd : RandSource) (fs : FS) (cfg : config) (r : Option Error) (fs' : FS)
    (hstat : ∀ p, os.statErr p = none) (hforce : cfg.force = false)
    (h : run os lib ceilMul fuel rnd fs cfg = some (r, fs')) :
    ∀ q, fs q ≠ none → fs' q = fs q := by
  intro q hq
  unfold run at h
  rw [hforce] at h
  split at h
  · simp only [Option.some.injEq, Prod.mk.injEq] at h
    rw [← h.2]
  · split at h
    · simp only [Option.some.injEq, Prod.mk.injEq] at h
      rw [← h.2]
    · split at h
      · dsimp only at h
        split at h
        · cases h
        · rename_i out hout
          have hfree := uniqueUnlessForce_free os lib fuel fs _ out hstat hout
          have hne : q ≠ os.file out := fun heq => hq (by rw [heq]; exact hfree)
          split at h
          · cases h
          · rename_i err fs1 hub
            simp only [Option.some.injEq, Prod.mk.injEq] at h
            rw [← h.2]
            exact unbigzip_frame _ _ _ _ _ _ _ hub q hne
          · rename_i fs1 hub
            simp only [Option.some.injEq, Prod.mk.injEq] at h
            rw [← h.2]
            exact unbigzip_frame _ _ _ _ _ _ _ hub q hne
      · split at h
        · simp only [Option.some.injEq, Prod.mk.injEq] at h
          rw [← h.2]
        · dsimp only at h
          split at h
          · simp only [Option.some.injEq, Prod.mk.injEq] at h
            rw [← h.2]
          · split at h
            · simp only [Option.some.injEq, Prod.mk.injEq] at h
              rw [← h.2]
            · split at h
              · cases h
              · rename_i out hout
                have hfree := uniqueUnlessForce_free os lib fuel fs _ out hstat hout
                have hne : q ≠ os.file out := fun heq => hq (by rw [heq]; exact hfree)
                split at h
                · simp only [Option.some.injEq, Prod.mk.injEq] at h
                  rw [← h.2]
                · have hP := writeContainer_preserves (fileWriter (os.file out))
                    (fun st : FS => ∀ q, q ≠ os.file out → st q = fs q)
                    (fun st p hst q hq => by
                      simp only [fileWriter]
                      rw [FS.set_other _ _ _ _ hq]
                      exact hst q hq)
                    _ _ _ _ _ _ r fs'
                    (fun q hq => FS.set_other _ _ _ _ hq) h
                  exact hP q hne

/-- C17, the code at a name of full length: the file named by 255 letters exists, and in a
directory whose names have at most 255 characters `os.Stat` answers every candidate, which
has at least 257 characters, with ENAMETOOLONG, for which `os.IsNotExist` is false.  So
`findUniquePath` returns no path, whatever the number of rounds. -/
theorem findUniquePath_long_name_no_result :
    ¬ ∃ (fuel : Nat) (q : String),
      findUniquePath (limitedNames 255) bareNames fuel
        (fun p => if p = String.mk (List.replicate 255 'a') then some [1] else none)
        (String.mk (List.replicate 255 'a')) = some q := by
  rintro ⟨fuel, q, h⟩
  have hlen : (String.mk (List.replicate 255 'a')).length = 255 := by
    simp only [String.length, List.length_replicate]
  have hp : osStat (limitedNames 255)
      (fun p => if p = String.mk (List.replicate 255 'a') then some [1] else none)
      (String.mk (List.replicate 255 'a')) ≠ StatResult.notExist := by
    simp only [osStat, limitedNames, hlen, gt_iff_lt, lt_irrefl, if_false, if_true]
    intro hc
    cases hc
  have hall : ∀ i, osStat (limitedNames 255)
      (fun p => if p = String.mk (List.replicate 255 'a') then some [1] else none)
      (findUniquePath.candidate bareNames (String.mk (List.replicate 255 'a')) i) ≠
        StatResult.notExist := by
    intro i
    have hc := candidate_bareNames_length (String.mk (List.replicate 255 'a')) i
    rw [hlen] at hc
    have hgt : (findUniquePath.candidate bareNames (String.mk (List.replicate 255 'a')) i).length
        > 255 := by omega
    simp only [osStat, limitedNames, hgt, if_true]
    intro hc2
    cases hc2
  rw [findUniquePath_eq_loop, if_neg hp, findUniquePath_loop_none _ _ _ hall] at h
  cases h

/-- C17 where `os.Stat` fails only on a missing file: let `os.Stat` answer every path as
existing or as missing, let `E` be the finite set of existing files and let the candidates
for the counters 1 .. |E|+1 name distinct files.  Then `findUniquePath(p)` returns a path that names no file of `E`: `p`
itself when `p` names no file of `E`, and otherwise the candidate with the smallest counter
`i ≥ 1` that names no file of `E`, where the candidate is `name_i.ext`, and for a base name
that ends in ".bigzip" the counter stands before the original extension.  Consequently a
`run` without force leaves every file of `E` as it was. -/
theorem findUniquePath_protects (os : OS) (lib : Library) (fs : FS) (E : Finset String)
    (p : String) (fuel : Nat) (hstat : ∀ path, os.statErr path = none)
    (hE : ∀ q, q ∈ E ↔ fs q ≠ none)
    (hinj : Set.InjOn (fun i => os.file (findUniquePath.candidate lib p i))
      (Finset.Icc 1 (E.card + 1) : Finset Nat))
    (hfuel : E.card + 1 ≤ fuel) :
    (∃ q, findUniquePath os lib fuel fs p = some q ∧ os.file q ∉ E ∧
      (os.file p ∉ E → q = p) ∧
      (os.file p ∈ E → ∃ i, 1 ≤ i ∧ q = findUniquePath.candidate lib p i ∧
        ∀ j, 1 ≤ j → j < i → os.file (findUniquePath.candidate lib p j) ∈ E)) ∧
    (∀ (k : Nat) (ceilMul : Int → Rat → Int) (rnd : RandSource) (cfg : config)
      (r : Option Error) (fs' : FS),
      cfg.force = false → run os lib ceilMul k rnd fs cfg = some (r, fs') →
      ∀ q, q ∈ E → fs' q = fs q) := by
  constructor
  · rw [findUniquePath_eq_loop, osStat_of_total os fs p (hstat p)]
    by_cases hp : fs (os.file p) = none
    · have hpE : os.file p ∉ E := fun h => (hE _).mp h hp
      exact ⟨p, by rw [if_pos hp, if_pos rfl], hpE, fun _ => rfl, fun h => absurd h hpE⟩
    · have hpE : os.file p ∈ E := (hE _).mpr hp
      obtain ⟨i, hi1, hile, hfree, hbusy⟩ :=
        exists_free_counter E (fun i => os.file (findUniquePath.candidate lib p i)) hinj
      have hfree2 : fs (os.file (findUniquePath.candidate lib p i)) = none := by
        by_contra hc
        exact hfree ((hE _).mpr hc)
      refine ⟨findUniquePath.candidate lib p i, ?_, hfree, fun h => absurd hpE h,
        fun _ => ⟨i, hi1, rfl, hbusy⟩⟩
      rw [if_neg hp, if_neg (by intro hc; cases hc)]
      refine findUniquePath_loop_smallest os fs _ fuel 1 i hi1 ?_ ?_ (by omega)
      · rw [osStat_of_total os fs _ (hstat _), if_pos hfree2]
      · intro j hj hji
        rw [osStat_of_total os fs _ (hstat _), if_neg ((hE _).mp (hbusy j hj hji))]
        intro hc
        cases hc
  · intro k ceilMul rnd cfg r fs' hforce hrun q hq
    exact run_preserves_existing os lib ceilMul k rnd fs cfg r fs' hstat hforce hrun q
      ((hE q).mp hq)

/-- Witness of C17: "restored.txt" exists, as in the test `TestOverwriteProtection`; the
path found is "restored_1.txt", and for an existing "original.txt.bigzip" it is
"original_1.txt.bigzip". -/
theorem findUniquePath_protects_witness :
    ((∃ q, findUniquePath plainOS bareNames 2
          (fun p => if p = "restored.txt" then some [1] else none) "restored.txt" = some q ∧
        plainOS.file q ∉ ({"restored.txt"} : Finset String) ∧
        (plainOS.file "restored.txt" ∉ ({"restored.txt"} : Finset String) →
          q = "restored.txt") ∧
        (plainOS.file "restored.txt" ∈ ({"restored.txt"} : Finset String) →
          ∃ i, 1 ≤ i ∧ q = findUniquePath.candidate bareNames "restored.txt" i ∧
            ∀ j, 1 ≤ j → j < i →
              plainOS.file (findUniquePath.candidate bareNames "restored.txt" j) ∈
                ({"restored.txt"} : Finset String))) ∧
      (∀ (k : Nat) (ceilMul : Int → Rat → Int) (rnd : RandSource) (cfg : config)
        (r : Option Error) (fs' : FS),
        cfg.force = false →
        run plainOS bareNames ceilMul k rnd
            (fun p => if p = "restored.txt" then some [1] else none) cfg =
          some (r, fs') →
        ∀ q, q ∈ ({"restored.txt"} : Finset String) →
          fs' q = (fun p => if p = "restored.txt" then some [1] else none) q)) ∧
    findUniquePath plainOS bareNames 2
      (fun p => if p = "restored.txt" then some [1] else none)
      "restored.txt" = some "restored_1.txt" ∧
    findUniquePath plainOS bareNames 2
      (fun p => if p = "original.txt.bigzip" then some [1] else none)
      "original.txt.bigzip" = some "original_1.txt.bigzip" :=
  ⟨findUniquePath_protects plainOS bareNames
      (fun p => if p = "restored.txt" then some [1] else none)
      {"restored.txt"} "restored.txt" 2 (fun _ => rfl)
      (by
        intro q
        by_cases hq : q = "restored.txt" <;> simp [hq])
      (by
        intro i hi j hj h
        simp only [Finset.card_singleton, Finset.coe_Icc, Set.mem_Icc] at hi hj
        have hi2 : i = 1 ∨ i = 2 := by omega
        have hj2 : j = 1 ∨ j = 2 := by omega
        rcases hi2 with rfl | rfl <;> rcases hj2 with rfl | rfl
        · rfl
        · exact absurd h (by decide)
        · exact absurd h (by decide)
        · rfl)
      (by decide),
    by decide, by decide⟩

end Bigzip
